import Mathlib

/-!
Verification of the weighted-least-connections load balancer core
(`server_heap.go`, `main.go`, `HealthChecker.go`, and the dispatcher /
config loader in the unnamed main file).

Modelling conventions:
* A Go `*Server` pointer is a `Nat` identifier into a store
  `Nat → Server`; mutation through any alias is mutation of the store
  entry, which reproduces Go's aliasing (the same record reachable both
  from the heap slice and from callers).
* The heap slice `ServerHeap` is a pair of a position map `Nat → Nat`
  (position to server id) and a length `hlen`; `append` writes at
  position `hlen` and increments it, `old[0:n-1]` decrements it.
* Go `int` is `Int`; the `-1` absent sentinel is kept literally.
* `ServerHeap.Less` compares `float64(a.ActiveConnections)/float64(a.Weight)`.
  We model the float64 division comparison as the exact comparison of
  rational ratios, written by cross-multiplication.  For the positive
  weights produced by `loadConfig` the cross-multiplied form is exactly
  the rational ratio order, and on the small integer operands exercised
  in the concrete scenarios below every ratio is exactly representable
  in float64, so the model and the code order identically there.
* The sift loops `up` and `down` of Go's `container/heap` terminate
  because the position strictly moves toward the root resp. the leaves;
  we make that structural with an explicit fuel argument that is always
  instantiated large enough (`j+1` for `up`, `n` for `down`).
-/

set_option maxHeartbeats 1000000
set_option maxRecDepth 100000

namespace LoadBalancer

/-- The `Server` struct of `main.go`.  `ReverseProxy` is an external
collaborator handle and carries no state relevant to the core, so it is
not modelled as a field.  `Weight` is the capacity field set by
`loadConfig` (zero-valued until then, as in Go). -/
structure Server where
  Name : String
  URL : String
  Health : Bool
  ActiveConnections : Int
  Weight : Int
  Index : Int
  deriving Repr, DecidableEq

/-- The `newServer` constructor of `main.go`: healthy, zero active
connections, absent sentinel index; `Weight` is left at Go's zero
value. -/
def newServer (name urlstr : String) : Server :=
  { Name := name, URL := urlstr, Health := true,
    ActiveConnections := 0, Weight := 0, Index := -1 }

/-- Pointwise update of a function-backed array. -/
def upd {α : Type} (f : Nat → α) (i : Nat) (a : α) : Nat → α :=
  fun k => if k = i then a else f k

/-- The `ServerPool` of `server_heap.go`: the slice of `*Server`
(positions `0 .. hlen-1` of `heap`) together with the store all pointers
dereference into.  The mutex only serializes operations and has no
sequential content. -/
structure ServerPool where
  store : Nat → Server
  heap : Nat → Nat
  hlen : Nat

/-- Read the record a heap position points at. -/
def ServerPool.atPos (p : ServerPool) (k : Nat) : Server :=
  p.store (p.heap k)

/-- Set the `Index` field of record `id`. -/
def updIndex (st : Nat → Server) (id : Nat) (v : Int) : Nat → Server :=
  upd st id { st id with Index := v }

/-- `ServerHeap.Less i j` of `server_heap.go`:
`float64(h[i].ActiveConnections)/float64(h[i].Weight) <
 float64(h[j].ActiveConnections)/float64(h[j].Weight)`, modelled as the
exact rational comparison in cross-multiplied form (exact for positive
weights, see the header note). -/
def serverLess (a b : Server) : Bool :=
  a.ActiveConnections * b.Weight < b.ActiveConnections * a.Weight

/-- `Less` at heap positions. -/
def lessAt (p : ServerPool) (i j : Nat) : Bool :=
  serverLess (p.atPos i) (p.atPos j)

/-- `ServerHeap.Swap i j`: swap the slice entries, then
`h[i].Index = i; h[j].Index = j` (in that order, on the records now at
those positions). -/
def ServerPool.swap (p : ServerPool) (i j : Nat) : ServerPool :=
  let a := p.heap i
  let b := p.heap j
  { store := updIndex (updIndex p.store b i) a j,
    heap := upd (upd p.heap i b) j a,
    hlen := p.hlen }

/-- `ServerHeap.Push`: `item.Index = n; *h = append(*h, item)`. -/
def ServerPool.pushItem (p : ServerPool) (id : Nat) : ServerPool :=
  { store := updIndex p.store id (Int.ofNat p.hlen),
    heap := upd p.heap p.hlen id,
    hlen := p.hlen + 1 }

/-- `ServerHeap.Pop`: take the last element, set its `Index` to `-1`,
shrink the slice; returns the popped id. -/
def ServerPool.popItem (p : ServerPool) : ServerPool × Nat :=
  let id := p.heap (p.hlen - 1)
  (⟨updIndex p.store id (-1), p.heap, p.hlen - 1⟩, id)

/-- The `up` sift loop of Go `container/heap`, with structural fuel
(the position strictly decreases, so fuel `j+1` suffices).  Go's break
condition `i == j` happens exactly at `j = 0` for nonnegative indices. -/
def upFuel : Nat → ServerPool → Nat → ServerPool
  | 0, p, _ => p
  | fuel + 1, p, j =>
    if j = 0 then p
    else
      let i := (j - 1) / 2
      if lessAt p j i then upFuel fuel (p.swap i j) i else p

/-- `up h j` of Go `container/heap`. -/
def up (p : ServerPool) (j : Nat) : ServerPool :=
  upFuel (j + 1) p j

/-- The `down` sift loop of Go `container/heap`, returning the final
position (Go returns `i > i0`).  Fuel `n` suffices since the position
strictly increases and stays below `n`.  Go's `j1 < 0` overflow guard
cannot fire for `Nat`. -/
def downFuel : Nat → ServerPool → Nat → Nat → ServerPool × Nat
  | 0, p, i, _ => (p, i)
  | fuel + 1, p, i, n =>
    if 2 * i + 1 < n then
      let j := if 2 * i + 2 < n ∧ lessAt p (2 * i + 2) (2 * i + 1)
               then 2 * i + 2 else 2 * i + 1
      if lessAt p j i then downFuel fuel (p.swap i j) j n else (p, i)
    else (p, i)

/-- `down h i0 n` of Go `container/heap`; the Bool is `i > i0`. -/
def down (p : ServerPool) (i0 n : Nat) : ServerPool × Bool :=
  let r := downFuel n p i0 n
  (r.1, decide (i0 < r.2))

/-- `heap.Fix h i`: `if !down(h, i, h.Len()) { up(h, i) }`. -/
def heapFix (p : ServerPool) (i : Nat) : ServerPool :=
  let r := down p i p.hlen
  if r.2 then r.1 else up r.1 i

/-- `heap.Push h x`: `h.Push(x); up(h, h.Len()-1)`. -/
def heapPush (p : ServerPool) (id : Nat) : ServerPool :=
  up (p.pushItem id) p.hlen

/-- `heap.Remove h i`:
`n := h.Len()-1; if n != i { h.Swap(i, n); if !down(h,i,n) { up(h,i) } };
return h.Pop()`. -/
def heapRemove (p : ServerPool) (i : Nat) : ServerPool :=
  let n := p.hlen - 1
  if i = n then (p.popItem).1
  else
    let p1 := p.swap i n
    let r := down p1 i n
    let p2 := if r.2 then r.1 else up r.1 i
    (p2.popItem).1

/-- `ServerPool.AddServer`: `heap.Push(&p.servers, s)`. -/
def AddServer (p : ServerPool) (id : Nat) : ServerPool :=
  heapPush p id

/-- `ServerPool.GetNextServer`: `nil` on an empty pool, else the root
`p.servers[0]`. -/
def GetNextServer (p : ServerPool) : Option Nat :=
  if p.hlen = 0 then none else some (p.heap 0)

/-- `ServerPool.IncrementActive`: `s.ActiveConnections++;
if s.Index != -1 { heap.Fix(&p.servers, s.Index) }`. -/
def IncrementActive (p : ServerPool) (id : Nat) : ServerPool :=
  let p1 : ServerPool :=
    ⟨upd p.store id
      { p.store id with ActiveConnections := (p.store id).ActiveConnections + 1 },
     p.heap, p.hlen⟩
  if (p1.store id).Index ≠ -1 then heapFix p1 ((p1.store id).Index).toNat else p1

/-- `ServerPool.DecrementActive`: `s.ActiveConnections--;
if s.Index != -1 { heap.Fix(&p.servers, s.Index) }`. -/
def DecrementActive (p : ServerPool) (id : Nat) : ServerPool :=
  let p1 : ServerPool :=
    ⟨upd p.store id
      { p.store id with ActiveConnections := (p.store id).ActiveConnections - 1 },
     p.heap, p.hlen⟩
  if (p1.store id).Index ≠ -1 then heapFix p1 ((p1.store id).Index).toNat else p1

/-- `ServerPool.RemoveServer`: `if s.Index != -1 {
heap.Remove(&p.servers, s.Index); s.Index = -1 }`. -/
def RemoveServer (p : ServerPool) (id : Nat) : ServerPool :=
  if (p.store id).Index ≠ -1 then
    let p1 := heapRemove p ((p.store id).Index).toNat
    ⟨updIndex p1.store id (-1), p1.heap, p1.hlen⟩
  else p

/-- One public pool operation, with the record argument as an id
(`getNext` is the read-only `GetNextServer`). -/
inductive PoolOp where
  | add (id : Nat)
  | remove (id : Nat)
  | inc (id : Nat)
  | dec (id : Nat)
  | getNext
  deriving Repr, DecidableEq

/-- Apply one public operation to the pool. -/
def applyOp (p : ServerPool) : PoolOp → ServerPool
  | .add id => AddServer p id
  | .remove id => RemoveServer p id
  | .inc id => IncrementActive p id
  | .dec id => DecrementActive p id
  | .getNext => p

/-- Apply a sequence of public operations. -/
def runOps (p : ServerPool) (ops : List PoolOp) : ServerPool :=
  ops.foldl applyOp p

/-- A sequence is legal when every `add` is invoked on a record that is
currently absent (`Index == -1`, exactly the guard `startHealthCheck`
checks before `pool.AddServer`) and that carries a positive weight (as
every record built by `loadConfig` does).  `remove`, `inc`, `dec` and
`getNext` are unconstrained: the code tolerates them on absent
records. -/
def legalOps : ServerPool → List PoolOp → Bool
  | _, [] => true
  | p, op :: rest =>
    (match op with
     | .add id => (p.store id).Index == -1 && 0 < (p.store id).Weight
     | _ => true) && legalOps (applyOp p op) rest

/-- Result of the dispatcher for one request. -/
inductive Response where
  | serviceUnavailable
  | forwarded (target : Nat) (ok : Bool)
  deriving Repr, DecidableEq

/-- `ForwardRequest` of the dispatcher: `GetNextServer`; on `nil` answer
503 without touching any state; otherwise `IncrementActive(target)`,
hand off to the external `ReverseProxy.ServeHTTP` (an opaque exchange
whose success or failure `ok` does not touch pool state — the Go proxy
reports forwarding errors in the response and returns normally), then
`DecrementActive(target)`. -/
def ForwardRequest (p : ServerPool) (ok : Bool) : ServerPool × Response :=
  match GetNextServer p with
  | none => (p, .serviceUnavailable)
  | some t =>
    let p1 := IncrementActive p t
    let p2 := DecrementActive p1 t
    (p2, .forwarded t ok)

/-- One entry of `config.json` as decoded by `loadConfig`. -/
structure ConfigEntry where
  name : String
  url : String
  weight : Int

/-- The record `loadConfig` builds for one entry:
`s := newServer(c.Name, c.URL); s.Weight = c.Weight;
if s.Weight <= 0 { s.Weight = 1 }`. -/
def loadServer (c : ConfigEntry) : Server :=
  let s := newServer c.name c.url
  let s1 := { s with Weight := c.weight }
  if s1.Weight ≤ 0 then { s1 with Weight := 1 } else s1

/-- `loadConfig`: allocate each configured record into the store (fresh
ids in order) and `pool.AddServer` it. -/
def loadConfig (cs : List ConfigEntry) : ServerPool × Nat :=
  cs.foldl
    (fun acc c =>
      let p := acc.1
      let id := acc.2
      (AddServer ⟨upd p.store id (loadServer c), p.heap, p.hlen⟩ id, id + 1))
    (⟨fun _ => newServer "" "", fun _ => 0, 0⟩, 0)

/-- Outcome of the HTTP HEAD probe inside `Server.Ping`: either the
client returns an error (connection failure or the 2-second timeout), or
a response with a status code. -/
inductive ProbeResult where
  | failure
  | response (statusCode : Nat)
  deriving Repr, DecidableEq

/-- `Server.Ping`: `if err != nil { return false };
return resp.StatusCode == http.StatusOK` (`http.StatusOK` is 200). -/
def Ping : ProbeResult → Bool
  | .failure => false
  | .response code => code == 200

/-!  Invariants of the selector, as the spec states them. -/

/-- The exact rational value of `ActiveConnections / Weight`. -/
def ratioQ (s : Server) : ℚ :=
  (s.ActiveConnections : ℚ) / (s.Weight : ℚ)

/-- Ratio key of the record at heap position `k`. -/
def keyAt (p : ServerPool) (k : Nat) : ℚ :=
  ratioQ (p.atPos k)

/-- Back-reference coherence: every occupied slot's record stores its
own position. -/
def Coherent (p : ServerPool) : Prop :=
  ∀ k, k < p.hlen → (p.atPos k).Index = (k : Int)

/-- Records not reachable from the heap carry the absent sentinel. -/
def AbsentClean (p : ServerPool) : Prop :=
  ∀ id, (∀ k, k < p.hlen → p.heap k ≠ id) → (p.store id).Index = -1

/-- Every member's weight is positive (as `loadConfig` guarantees). -/
def PosWeights (p : ServerPool) : Prop :=
  ∀ k, k < p.hlen → 0 < (p.atPos k).Weight

/-- The binary min-heap property by index under the ratio key. -/
def HeapProp (p : ServerPool) : Prop :=
  ∀ k, 0 < k → k < p.hlen → keyAt p ((k - 1) / 2) ≤ keyAt p k

/-- The full selector invariant. -/
def WF (p : ServerPool) : Prop :=
  Coherent p ∧ AbsentClean p ∧ PosWeights p ∧ HeapProp p

/-!  Concrete states used by scenarios and counterexamples. -/

/-- A freshly created record with the default positive weight, as
`loadConfig` produces for a configured weight of 1 (or any
non-positive configured weight). -/
def testServer : Server :=
  { newServer "s" "http://s:1" with Weight := 1 }

/-- The empty pool over a store of fresh weight-1 records. -/
def emptyPool : ServerPool :=
  ⟨fun _ => testServer, fun _ => 0, 0⟩

/-- Pool holding record 0 once. -/
def onePool : ServerPool :=
  AddServer emptyPool 0

/-- `AddServer` called again on the already-present record 0. -/
def dupPool : ServerPool :=
  AddServer onePool 0

/-- The duplicate-insert trace that breaks the heap order:
insert record 0 twice, insert record 1, then increment record 0
twice. -/
def cexC1Pool : ServerPool :=
  runOps emptyPool [.add 0, .add 0, .add 1, .inc 0, .inc 0]

/-- Backend A of the spec scenario: weight 10, 20 active (ratio 2.0),
sitting at slot 0. -/
def srvA : Server :=
  { Name := "A", URL := "http://a", Health := true,
    ActiveConnections := 20, Weight := 10, Index := 0 }

/-- Backend B of the spec scenario: weight 2, 10 active (ratio 5.0),
sitting at slot 1. -/
def srvB : Server :=
  { Name := "B", URL := "http://b", Health := true,
    ActiveConnections := 10, Weight := 2, Index := 1 }

/-- The pool containing exactly A and B. -/
def poolAB : ServerPool :=
  ⟨fun id => if id = 0 then srvA else srvB, fun k => k, 2⟩

/-- The scenario pool after 40 further `IncrementActive` on A. -/
def poolAB40 : ServerPool :=
  runOps poolAB (List.replicate 40 (.inc 0))

/-- Number of `IncrementActive` calls on `id` in a sequence. -/
def incCount (id : Nat) (ops : List PoolOp) : Nat :=
  ops.count (.inc id)

/-- Number of `DecrementActive` calls on `id` in a sequence. -/
def decCount (id : Nat) (ops : List PoolOp) : Nat :=
  ops.count (.dec id)

/-- Two pools agree on every record's load-relevant fields (everything
except the selector-owned `Index`). -/
def SameLoad (p q : ServerPool) : Prop :=
  ∀ j,
    (q.store j).ActiveConnections = (p.store j).ActiveConnections ∧
    (q.store j).Weight = (p.store j).Weight ∧
    (q.store j).Health = (p.store j).Health ∧
    (q.store j).Name = (p.store j).Name ∧
    (q.store j).URL = (p.store j).URL

/-!  Basic lemmas about the function-array primitives. -/

theorem upd_self {α : Type} (f : Nat → α) (i : Nat) (a : α) :
    upd f i a i = a := by
  simp [upd]

theorem upd_other {α : Type} (f : Nat → α) (i : Nat) (a : α) (k : Nat)
    (h : k ≠ i) : upd f i a k = f k := by
  simp [upd, h]

theorem updIndex_load (st : Nat → Server) (id : Nat) (v : Int) (j : Nat) :
    ((updIndex st id v) j).ActiveConnections = (st j).ActiveConnections ∧
    ((updIndex st id v) j).Weight = (st j).Weight ∧
    ((updIndex st id v) j).Health = (st j).Health ∧
    ((updIndex st id v) j).Name = (st j).Name ∧
    ((updIndex st id v) j).URL = (st j).URL := by
  by_cases hj : j = id <;> simp [updIndex, upd, hj]

theorem updIndex_index_self (st : Nat → Server) (id : Nat) (v : Int) :
    ((updIndex st id v) id).Index = v := by
  simp [updIndex, upd]

theorem updIndex_index_other (st : Nat → Server) (id : Nat) (v : Int)
    (j : Nat) (h : j ≠ id) : (updIndex st id v) j = st j := by
  simp [updIndex, upd, h]

theorem sameLoad_refl (p : ServerPool) : SameLoad p p := by
  intro j; exact ⟨rfl, rfl, rfl, rfl, rfl⟩

theorem sameLoad_trans {p q r : ServerPool}
    (h1 : SameLoad p q) (h2 : SameLoad q r) : SameLoad p r := by
  intro j
  obtain ⟨a1, a2, a3, a4, a5⟩ := h1 j
  obtain ⟨b1, b2, b3, b4, b5⟩ := h2 j
  exact ⟨b1.trans a1, b2.trans a2, b3.trans a3, b4.trans a4, b5.trans a5⟩

theorem swap_sameLoad (p : ServerPool) (i j : Nat) :
    SameLoad p (p.swap i j) := by
  intro k
  obtain ⟨e1, e2, e3, e4, e5⟩ :=
    updIndex_load (updIndex p.store (p.heap j) i) (p.heap i) j k
  obtain ⟨f1, f2, f3, f4, f5⟩ := updIndex_load p.store (p.heap j) i k
  exact ⟨e1.trans f1, e2.trans f2, e3.trans f3, e4.trans f4, e5.trans f5⟩

theorem swap_hlen (p : ServerPool) (i j : Nat) :
    (p.swap i j).hlen = p.hlen := rfl

theorem pushItem_sameLoad (p : ServerPool) (id : Nat) :
    SameLoad p (p.pushItem id) := by
  intro k
  exact updIndex_load p.store id (Int.ofNat p.hlen) k

theorem popItem_sameLoad (p : ServerPool) :
    SameLoad p (p.popItem).1 := by
  intro k
  exact updIndex_load p.store (p.heap (p.hlen - 1)) (-1) k

theorem upFuel_sameLoad (fuel : Nat) :
    ∀ p j, SameLoad p (upFuel fuel p j) := by
  induction fuel with
  | zero => intro p j; exact sameLoad_refl p
  | succ n ih =>
    intro p j
    by_cases h0 : j = 0
    · simp [upFuel, h0]; exact sameLoad_refl p
    · by_cases hl : lessAt p j ((j - 1) / 2)
      · simp only [upFuel, h0, hl, if_true, if_false]
        exact sameLoad_trans (swap_sameLoad p ((j - 1) / 2) j)
          (ih (p.swap ((j - 1) / 2) j) ((j - 1) / 2))
      · simp [upFuel, h0, hl]; exact sameLoad_refl p

theorem up_sameLoad (p : ServerPool) (j : Nat) : SameLoad p (up p j) :=
  upFuel_sameLoad (j + 1) p j

theorem downFuel_sameLoad (fuel : Nat) :
    ∀ p i n, SameLoad p (downFuel fuel p i n).1 := by
  induction fuel with
  | zero => intro p i n; exact sameLoad_refl p
  | succ m ih =>
    intro p i n
    by_cases hc : 2 * i + 1 < n
    · set j := if 2 * i + 2 < n ∧ lessAt p (2 * i + 2) (2 * i + 1)
               then 2 * i + 2 else 2 * i + 1 with hj
      by_cases hl : lessAt p j i
      · simp only [downFuel, hc, ← hj, hl, if_true, if_false]
        exact sameLoad_trans (swap_sameLoad p i j) (ih (p.swap i j) j n)
      · simp only [downFuel, hc, ← hj, hl, if_true, if_false]
        exact sameLoad_refl p
    · simp [downFuel, hc]; exact sameLoad_refl p

theorem down_sameLoad (p : ServerPool) (i n : Nat) :
    SameLoad p (down p i n).1 :=
  downFuel_sameLoad n p i n

theorem heapFix_sameLoad (p : ServerPool) (i : Nat) :
    SameLoad p (heapFix p i) := by
  unfold heapFix
  by_cases h : (down p i p.hlen).2
  · simp only [h, if_true]; exact down_sameLoad p i p.hlen
  · simp only [h, if_false]
    exact sameLoad_trans (down_sameLoad p i p.hlen)
      (up_sameLoad (down p i p.hlen).1 i)

theorem heapPush_sameLoad (p : ServerPool) (id : Nat) :
    SameLoad p (heapPush p id) :=
  sameLoad_trans (pushItem_sameLoad p id) (up_sameLoad (p.pushItem id) p.hlen)

theorem heapRemove_sameLoad (p : ServerPool) (i : Nat) :
    SameLoad p (heapRemove p i) := by
  unfold heapRemove
  by_cases he : i = p.hlen - 1
  · simp only [he, if_true]; exact popItem_sameLoad p
  · simp only [he, if_false]
    have h1 := swap_sameLoad p i (p.hlen - 1)
    set p1 := p.swap i (p.hlen - 1) with hp1
    have h2 := down_sameLoad p1 i (p.hlen - 1)
    by_cases hm : (down p1 i (p.hlen - 1)).2
    · simp only [hm, if_true]
      exact sameLoad_trans (sameLoad_trans h1 h2)
        (popItem_sameLoad (down p1 i (p.hlen - 1)).1)
    · simp only [hm, if_false]
      refine sameLoad_trans (sameLoad_trans (sameLoad_trans h1 h2) ?_)
        (popItem_sameLoad _)
      exact up_sameLoad (down p1 i (p.hlen - 1)).1 i

theorem AddServer_sameLoad (p : ServerPool) (id : Nat) :
    SameLoad p (AddServer p id) :=
  heapPush_sameLoad p id

theorem RemoveServer_sameLoad (p : ServerPool) (id : Nat) :
    SameLoad p (RemoveServer p id) := by
  unfold RemoveServer
  by_cases h : (p.store id).Index ≠ -1
  · rw [if_pos h]
    refine sameLoad_trans (heapRemove_sameLoad p ((p.store id).Index).toNat)
      (fun j => ?_)
    exact updIndex_load (heapRemove p ((p.store id).Index).toNat).store id (-1) j
  · rw [if_neg h]; exact sameLoad_refl p

theorem IncrementActive_store (p : ServerPool) (id : Nat) :
    ∀ j,
      ((IncrementActive p id).store j).ActiveConnections
        = (if j = id then (p.store j).ActiveConnections + 1
           else (p.store j).ActiveConnections) ∧
      ((IncrementActive p id).store j).Weight = (p.store j).Weight ∧
      ((IncrementActive p id).store j).Health = (p.store j).Health ∧
      ((IncrementActive p id).store j).Name = (p.store j).Name ∧
      ((IncrementActive p id).store j).URL = (p.store j).URL := by
  intro j
  unfold IncrementActive
  set p1 : ServerPool :=
    ⟨upd p.store id
      { p.store id with ActiveConnections := (p.store id).ActiveConnections + 1 },
     p.heap, p.hlen⟩ with hp1
  have hload : ∀ k,
      (p1.store k).ActiveConnections
        = (if k = id then (p.store k).ActiveConnections + 1
           else (p.store k).ActiveConnections) ∧
      (p1.store k).Weight = (p.store k).Weight ∧
      (p1.store k).Health = (p.store k).Health ∧
      (p1.store k).Name = (p.store k).Name ∧
      (p1.store k).URL = (p.store k).URL := by
    intro k
    by_cases hk : k = id <;> simp [hp1, upd, hk]
  have hres : SameLoad p1
      (if (p1.store id).Index ≠ -1 then heapFix p1 ((p1.store id).Index).toNat
       else p1) := by
    by_cases hc : (p1.store id).Index ≠ -1
    · rw [if_pos hc]; exact heapFix_sameLoad p1 ((p1.store id).Index).toNat
    · rw [if_neg hc]; exact sameLoad_refl p1
  obtain ⟨a1, a2, a3, a4, a5⟩ := hres j
  obtain ⟨b1, b2, b3, b4, b5⟩ := hload j
  exact ⟨a1.trans b1, a2.trans b2, a3.trans b3, a4.trans b4, a5.trans b5⟩

theorem DecrementActive_store (p : ServerPool) (id : Nat) :
    ∀ j,
      ((DecrementActive p id).store j).ActiveConnections
        = (if j = id then (p.store j).ActiveConnections - 1
           else (p.store j).ActiveConnections) ∧
      ((DecrementActive p id).store j).Weight = (p.store j).Weight ∧
      ((DecrementActive p id).store j).Health = (p.store j).Health ∧
      ((DecrementActive p id).store j).Name = (p.store j).Name ∧
      ((DecrementActive p id).store j).URL = (p.store j).URL := by
  intro j
  unfold DecrementActive
  set p1 : ServerPool :=
    ⟨upd p.store id
      { p.store id with ActiveConnections := (p.store id).ActiveConnections - 1 },
     p.heap, p.hlen⟩ with hp1
  have hload : ∀ k,
      (p1.store k).ActiveConnections
        = (if k = id then (p.store k).ActiveConnections - 1
           else (p.store k).ActiveConnections) ∧
      (p1.store k).Weight = (p.store k).Weight ∧
      (p1.store k).Health = (p.store k).Health ∧
      (p1.store k).Name = (p.store k).Name ∧
      (p1.store k).URL = (p.store k).URL := by
    intro k
    by_cases hk : k = id <;> simp [hp1, upd, hk]
  have hres : SameLoad p1
      (if (p1.store id).Index ≠ -1 then heapFix p1 ((p1.store id).Index).toNat
       else p1) := by
    by_cases hc : (p1.store id).Index ≠ -1
    · rw [if_pos hc]; exact heapFix_sameLoad p1 ((p1.store id).Index).toNat
    · rw [if_neg hc]; exact sameLoad_refl p1
  obtain ⟨a1, a2, a3, a4, a5⟩ := hres j
  obtain ⟨b1, b2, b3, b4, b5⟩ := hload j
  exact ⟨a1.trans b1, a2.trans b2, a3.trans b3, a4.trans b4, a5.trans b5⟩

theorem applyOp_active (p : ServerPool) (op : PoolOp) (j : Nat) :
    ((applyOp p op).store j).ActiveConnections
      = (p.store j).ActiveConnections +
        (match op with
         | .inc i => if j = i then 1 else 0
         | .dec i => if j = i then -1 else 0
         | _ => 0) := by
  cases op with
  | add id => have := (AddServer_sameLoad p id j).1; simpa [applyOp] using this
  | remove id =>
    have := (RemoveServer_sameLoad p id j).1; simpa [applyOp] using this
  | inc id =>
    have := (IncrementActive_store p id j).1
    by_cases hj : j = id <;> simp [applyOp, hj] at this ⊢ <;> omega
  | dec id =>
    have := (DecrementActive_store p id j).1
    by_cases hj : j = id <;> simp [applyOp, hj] at this ⊢ <;> omega
  | getNext => simp [applyOp]

theorem applyOp_rest (p : ServerPool) (op : PoolOp) (j : Nat) :
    ((applyOp p op).store j).Weight = (p.store j).Weight ∧
    ((applyOp p op).store j).Health = (p.store j).Health ∧
    ((applyOp p op).store j).Name = (p.store j).Name ∧
    ((applyOp p op).store j).URL = (p.store j).URL := by
  cases op with
  | add id => exact ⟨(AddServer_sameLoad p id j).2.1, (AddServer_sameLoad p id j).2.2.1,
      (AddServer_sameLoad p id j).2.2.2.1, (AddServer_sameLoad p id j).2.2.2.2⟩
  | remove id => exact ⟨(RemoveServer_sameLoad p id j).2.1,
      (RemoveServer_sameLoad p id j).2.2.1,
      (RemoveServer_sameLoad p id j).2.2.2.1, (RemoveServer_sameLoad p id j).2.2.2.2⟩
  | inc id => exact ⟨(IncrementActive_store p id j).2.1,
      (IncrementActive_store p id j).2.2.1,
      (IncrementActive_store p id j).2.2.2.1, (IncrementActive_store p id j).2.2.2.2⟩
  | dec id => exact ⟨(DecrementActive_store p id j).2.1,
      (DecrementActive_store p id j).2.2.1,
      (DecrementActive_store p id j).2.2.2.1, (DecrementActive_store p id j).2.2.2.2⟩
  | getNext => exact ⟨rfl, rfl, rfl, rfl⟩

theorem runOps_active (ops : List PoolOp) :
    ∀ p id, ((runOps p ops).store id).ActiveConnections
      = (p.store id).ActiveConnections
        + (incCount id ops : Int) - (decCount id ops : Int) := by
  induction ops with
  | nil => intro p id; simp [runOps, incCount, decCount]
  | cons op rest ih =>
    intro p id
    have hstep := applyOp_active p op id
    have htail := ih (applyOp p op) id
    have hrun : runOps p (op :: rest) = runOps (applyOp p op) rest := rfl
    rw [hrun, htail, hstep]
    cases op with
    | add i => simp [incCount, decCount, List.count_cons]
    | remove i => simp [incCount, decCount, List.count_cons]
    | getNext => simp [incCount, decCount, List.count_cons]
    | inc i =>
      by_cases hj : id = i
      · subst hj
        simp [incCount, decCount, List.count_cons]
        omega
      · have h1 : (PoolOp.inc id) ≠ (PoolOp.inc i) := by
          intro hc; exact hj (by cases hc; rfl)
        have h2 : (PoolOp.dec id) ≠ (PoolOp.inc i) := by intro hc; cases hc
        simp [incCount, decCount, List.count_cons, h1, h2, hj]
    | dec i =>
      by_cases hj : id = i
      · subst hj
        simp [incCount, decCount, List.count_cons]
        omega
      · have h1 : (PoolOp.inc id) ≠ (PoolOp.dec i) := by intro hc; cases hc
        have h2 : (PoolOp.dec id) ≠ (PoolOp.dec i) := by
          intro hc; exact hj (by cases hc; rfl)
        simp [incCount, decCount, List.count_cons, h1, h2, hj]

theorem runOps_weight (ops : List PoolOp) :
    ∀ p id, ((runOps p ops).store id).Weight = (p.store id).Weight := by
  induction ops with
  | nil => intro p id; rfl
  | cons op rest ih =>
    intro p id
    have hrun : runOps p (op :: rest) = runOps (applyOp p op) rest := rfl
    rw [hrun, ih (applyOp p op) id, (applyOp_rest p op id).1]

theorem IncrementActive_absent_eq (p : ServerPool) (id : Nat)
    (h : (p.store id).Index = -1) :
    IncrementActive p id =
      ⟨upd p.store id
        { p.store id with
          ActiveConnections := (p.store id).ActiveConnections + 1 },
       p.heap, p.hlen⟩ := by
  unfold IncrementActive
  rw [if_neg]
  simp [upd, h]

theorem DecrementActive_absent_eq (p : ServerPool) (id : Nat)
    (h : (p.store id).Index = -1) :
    DecrementActive p id =
      ⟨upd p.store id
        { p.store id with
          ActiveConnections := (p.store id).ActiveConnections - 1 },
       p.heap, p.hlen⟩ := by
  unfold DecrementActive
  rw [if_neg]
  simp [upd, h]

/-- Claim C2 (corrected), counterexample to the claim as stated: for the
absent record 0 of `emptyPool` (Index is the `-1` sentinel),
`IncrementActive` raises its `ActiveConnections` from 0 to 1 and
`DecrementActive` lowers it to -1 — the call is not the claimed complete
no-op on the record. -/
theorem incdec_absent_not_noop_cex :
    (emptyPool.store 0).Index = -1 ∧
    (emptyPool.store 0).ActiveConnections = 0 ∧
    ((IncrementActive emptyPool 0).store 0).ActiveConnections = 1 ∧
    ((DecrementActive emptyPool 0).store 0).ActiveConnections = -1 := by
  decide

/-- Claim C2 (amended): `IncrementActive`/`DecrementActive` on an absent
record (`Index == -1`) leave the selector's array, its length, every
record's `Index` field, and every other record untouched, and surface no
error — but they do still mutate the absent record's
`ActiveConnections` by plus resp. minus one (only the `heap.Fix`
rebalance is skipped). -/
theorem incdec_absent_skips_fix_only (p : ServerPool) (id : Nat)
    (h : (p.store id).Index = -1) :
    (IncrementActive p id).heap = p.heap ∧
    (IncrementActive p id).hlen = p.hlen ∧
    (∀ j, ((IncrementActive p id).store j).Index = (p.store j).Index) ∧
    (∀ j, j ≠ id → (IncrementActive p id).store j = p.store j) ∧
    ((IncrementActive p id).store id).ActiveConnections
      = (p.store id).ActiveConnections + 1 ∧
    (DecrementActive p id).heap = p.heap ∧
    (DecrementActive p id).hlen = p.hlen ∧
    (∀ j, ((DecrementActive p id).store j).Index = (p.store j).Index) ∧
    (∀ j, j ≠ id → (DecrementActive p id).store j = p.store j) ∧
    ((DecrementActive p id).store id).ActiveConnections
      = (p.store id).ActiveConnections - 1 := by
  rw [IncrementActive_absent_eq p id h, DecrementActive_absent_eq p id h]
  refine ⟨rfl, rfl, ?_, ?_, ?_, rfl, rfl, ?_, ?_, ?_⟩ <;>
    first
      | (intro j hj; simp [upd, hj])
      | (intro j; by_cases hj : j = id <;> simp [upd, hj])
      | simp [upd]

theorem incdec_absent_skips_fix_only_witness :
    ((IncrementActive emptyPool 0).store 0).ActiveConnections
      = (emptyPool.store 0).ActiveConnections + 1 :=
  (incdec_absent_skips_fix_only emptyPool 0 rfl).2.2.2.2.1

/-- Claim C3 (code bug), evaluation at the failing input: record 0 is
already the sole member of `onePool` (slot 0, `Index` 0); calling
`AddServer` on it again appends a second occurrence, so the array holds
the same record at slots 0 and 1, and the record's single `Index` field
(now 1) can no longer equal the slot of its first occurrence — the
spec's "must not duplicate entries" is violated. -/
theorem addServer_duplicates_eval :
    onePool.hlen = 1 ∧ onePool.heap 0 = 0 ∧ (onePool.store 0).Index = 0 ∧
    dupPool.hlen = 2 ∧ dupPool.heap 0 = 0 ∧ dupPool.heap 1 = 0 ∧
    (dupPool.store 0).Index = 1 := by
  decide

/-- Claim C4 (corrected), counterexample to the claim as stated: after
`AddServer` and a single unmatched `DecrementActive`, the freshly
created record's `ActiveConnections` is -1. -/
theorem decrement_drives_negative_cex :
    ((runOps emptyPool [.add 0, .dec 0]).store 0).ActiveConnections = -1 := by
  decide

/-- Claim C4 (amended): over any sequence of public pool operations,
a record's `ActiveConnections` always equals the number of
`IncrementActive` calls minus the number of `DecrementActive` calls on
it so far (the code never clamps); consequently it stays nonnegative
exactly on sequences in which no prefix contains more decrements than
increments of the record — and a lone unmatched decrement makes it
negative. -/
theorem active_count_accounting (p : ServerPool) (id : Nat)
    (ops : List PoolOp) (h0 : (p.store id).ActiveConnections = 0) :
    (∀ t, ((runOps p (ops.take t)).store id).ActiveConnections
        = (incCount id (ops.take t) : Int) - (decCount id (ops.take t) : Int)) ∧
    ((∀ t, decCount id (ops.take t) ≤ incCount id (ops.take t)) →
      ∀ t, 0 ≤ ((runOps p (ops.take t)).store id).ActiveConnections) := by
  have heq : ∀ t, ((runOps p (ops.take t)).store id).ActiveConnections
      = (incCount id (ops.take t) : Int) - (decCount id (ops.take t) : Int) := by
    intro t
    have := runOps_active (ops.take t) p id
    omega
  refine ⟨heq, fun hbal t => ?_⟩
  have h1 := heq t
  have h2 := hbal t
  omega

theorem active_count_accounting_witness :
    ((runOps emptyPool ([PoolOp.add 0, .inc 0, .dec 0].take 3)).store 0).ActiveConnections
      = (incCount 0 ([PoolOp.add 0, .inc 0, .dec 0].take 3) : Int)
        - (decCount 0 ([PoolOp.add 0, .inc 0, .dec 0].take 3) : Int) :=
  (active_count_accounting emptyPool 0 [.add 0, .inc 0, .dec 0] rfl).1 3

/-- Claim C6 (confirmed): on an empty selector `GetNextServer` returns
`nil` (no panic, no undefined value), and the dispatcher then answers
503 Service Unavailable while returning the pool completely
unchanged. -/
theorem empty_pool_unavailable (p : ServerPool) (ok : Bool)
    (h : p.hlen = 0) :
    GetNextServer p = none ∧
    ForwardRequest p ok = (p, .serviceUnavailable) := by
  have hg : GetNextServer p = none := by simp [GetNextServer, h]
  exact ⟨hg, by simp [ForwardRequest, hg]⟩

theorem empty_pool_unavailable_witness :
    GetNextServer emptyPool = none ∧
    ForwardRequest emptyPool true = (emptyPool, .serviceUnavailable) :=
  empty_pool_unavailable emptyPool true rfl

/-- Claim C7 (confirmed): in the pool containing exactly backend A
(weight 10, 20 active, ratio 2.0) and backend B (weight 2, 10 active,
ratio 5.0), `GetNextServer` returns A (record 0); `serverLess` confirms
A's ratio is below B's.  After 40 further `IncrementActive` calls on A
(60 active, ratio 6.0), `GetNextServer` returns B, whose unchanged
ratio 5.0 is now below A's. -/
theorem weighted_scenario_selects_A_then_B :
    poolAB.store 0 = srvA ∧ poolAB.store 1 = srvB ∧
    serverLess srvA srvB = true ∧
    GetNextServer poolAB = some 0 ∧
    (poolAB40.store 0).ActiveConnections = 60 ∧
    (poolAB40.store 0).Weight = 10 ∧
    (poolAB40.store 1).ActiveConnections = 10 ∧
    (poolAB40.store 1).Weight = 2 ∧
    serverLess (poolAB40.store 1) (poolAB40.store 0) = true ∧
    GetNextServer poolAB40 = some 1 := by
  decide

/-- Claim C9 (confirmed): `Ping` reports unhealthy (`false`) both on a
probe failure (connection error or timeout) and on any explicit
non-success status code; it reports healthy (`true`) exactly for a
200 OK response. -/
theorem ping_unhealthy_classification :
    Ping .failure = false ∧
    (∀ code, code ≠ 200 → Ping (.response code) = false) ∧
    (∀ r, Ping r = true ↔ r = .response 200) := by
  refine ⟨rfl, fun code h => by simp [Ping, h], fun r => ?_⟩
  cases r with
  | failure => simp [Ping]
  | response code => simp [Ping]

theorem ping_unhealthy_classification_witness :
    Ping (.response 500) = false ∧ Ping (.response 200) = true :=
  ⟨ping_unhealthy_classification.2.1 500 (by decide),
   (ping_unhealthy_classification.2.2 (.response 200)).mpr rfl⟩

/-- Claim C5 (confirmed): whenever `GetNextServer` yields a backend,
`ForwardRequest` is exactly one `IncrementActive` on it, the opaque
forwarding exchange (which returns on success and on failure alike),
and one `DecrementActive` on it; afterwards every record's
`ActiveConnections` — in particular the chosen backend's — equals its
value before the request. -/
theorem forward_request_balances (p : ServerPool) (ok : Bool) (t : Nat)
    (h : GetNextServer p = some t) :
    ForwardRequest p ok
      = (DecrementActive (IncrementActive p t) t, .forwarded t ok) ∧
    (∀ j, (((ForwardRequest p ok).1).store j).ActiveConnections
        = (p.store j).ActiveConnections) := by
  have hfr : ForwardRequest p ok
      = (DecrementActive (IncrementActive p t) t, .forwarded t ok) := by
    simp [ForwardRequest, h]
  refine ⟨hfr, fun j => ?_⟩
  rw [hfr]
  have h1 := (IncrementActive_store p t j).1
  have h2 := (DecrementActive_store (IncrementActive p t) t j).1
  by_cases hj : j = t
  · subst hj; rw [h2, h1]; simp
  · rw [h2, h1]; simp [hj]

theorem forward_request_balances_witness :
    ((ForwardRequest onePool true).1.store 0).ActiveConnections
      = (onePool.store 0).ActiveConnections :=
  (forward_request_balances onePool true 0 (by decide)).2 0

/-- Claim C8 (confirmed): `loadConfig` builds each record with the
configured weight when it is positive and with weight 1 when the
configured weight is non-positive (so every constructed weight is
positive), and no pool operation — `AddServer` included — ever changes
any record's `Weight`. -/
theorem weight_normalized_and_immutable :
    (∀ c : ConfigEntry,
      (loadServer c).Weight = (if c.weight ≤ 0 then 1 else c.weight) ∧
      0 < (loadServer c).Weight) ∧
    (∀ p id j, ((AddServer p id).store j).Weight = (p.store j).Weight) ∧
    (∀ p ops j, ((runOps p ops).store j).Weight = (p.store j).Weight) := by
  refine ⟨fun c => ?_, fun p id j => (AddServer_sameLoad p id j).2.1,
    fun p ops j => runOps_weight ops p j⟩
  by_cases h : c.weight ≤ 0
  · simp [loadServer, newServer, h]
  · simp [loadServer, newServer, h]
    omega

/-- Claim C1 (corrected), counterexample to the claim as stated: the
operation sequence `add 0, add 0, add 1, inc 0, inc 0` (a double insert
of record 0, then two increments) leaves the pool with root record 0 at
ratio 2 while the present member at slot 2 (record 1) has ratio 0, so
the root returned by `GetNextServer` does not have minimal ratio and
the array is not a min-heap. -/
theorem heap_order_violated_by_duplicate_cex :
    cexC1Pool.hlen = 3 ∧ cexC1Pool.heap 2 = 1 ∧
    GetNextServer cexC1Pool = some 0 ∧
    serverLess (cexC1Pool.atPos 2) (cexC1Pool.atPos 0) = true ∧
    ¬ HeapProp cexC1Pool := by
  refine ⟨by decide, by decide, by decide, by decide, fun hH => ?_⟩
  have h := hH 2 (by omega) (by show 2 < cexC1Pool.hlen; decide)
  have e0 : cexC1Pool.atPos 0 = ⟨"s", "http://s:1", true, 2, 1, 1⟩ := by decide
  have e2 : cexC1Pool.atPos 2 = ⟨"s", "http://s:1", true, 0, 1, 2⟩ := by decide
  simp only [keyAt, show ((2 : Nat) - 1) / 2 = 0 from rfl, e0, e2] at h
  norm_num [ratioQ] at h

/-- Claim C10 (corrected), counterexample to the claim as stated:
`onePool` satisfies back-reference coherence, but the public operation
`AddServer` applied to its already-present record 0 yields a pool in
which slot 0's record stores index 1 — coherence is not preserved by
every public operation on every reachable argument. -/
theorem coherence_broken_by_duplicate_cex :
    Coherent onePool ∧ ¬ Coherent (AddServer onePool 0) := by
  constructor
  · intro k hk
    have hk0 : k = 0 := by
      have : onePool.hlen = 1 := by decide
      omega
    subst hk0
    decide
  · intro hC
    have h2 : (AddServer onePool 0).hlen = 2 := by decide
    have := hC 0 (by rw [h2]; omega)
    exact absurd this (by decide)

/-!  Binary-tree index arithmetic. -/

theorem parent_lt {j : Nat} (h : 0 < j) : (j - 1) / 2 < j := by omega

theorem left_child_parent (i : Nat) : (2 * i + 1 - 1) / 2 = i := by omega

theorem right_child_parent (i : Nat) : (2 * i + 2 - 1) / 2 = i := by omega

theorem parent_child_cases {j : Nat} (h : 0 < j) :
    j = 2 * ((j - 1) / 2) + 1 ∨ j = 2 * ((j - 1) / 2) + 2 := by omega

/-!  The float comparison versus the exact rational ratio order. -/

theorem serverLess_iff {a b : Server} (ha : 0 < a.Weight)
    (hb : 0 < b.Weight) :
    serverLess a b = true ↔ ratioQ a < ratioQ b := by
  have hcast : serverLess a b = true
      ↔ a.ActiveConnections * b.Weight < b.ActiveConnections * a.Weight := by
    simp [serverLess]
  rw [hcast]
  unfold ratioQ
  rw [div_lt_div_iff₀ (by exact_mod_cast ha) (by exact_mod_cast hb)]
  constructor
  · intro h; exact_mod_cast h
  · intro h; exact_mod_cast h

theorem serverLess_false_iff {a b : Server} (ha : 0 < a.Weight)
    (hb : 0 < b.Weight) :
    serverLess a b = false ↔ ratioQ b ≤ ratioQ a := by
  rw [← not_lt, ← serverLess_iff ha hb]
  cases h : serverLess a b <;> simp [h]

theorem lessAt_true_iff (p : ServerPool) {i j : Nat}
    (hi : 0 < (p.atPos i).Weight) (hj : 0 < (p.atPos j).Weight) :
    lessAt p i j = true ↔ keyAt p i < keyAt p j :=
  serverLess_iff hi hj

theorem lessAt_false_iff (p : ServerPool) {i j : Nat}
    (hi : 0 < (p.atPos i).Weight) (hj : 0 < (p.atPos j).Weight) :
    lessAt p i j = false ↔ keyAt p j ≤ keyAt p i :=
  serverLess_false_iff hi hj

/-!  Structural effect of `Swap` on positions, keys and invariants. -/

theorem ratioQ_updIndex (st : Nat → Server) (id : Nat) (v : Int) (x : Nat) :
    ratioQ ((updIndex st id v) x) = ratioQ (st x) := by
  by_cases hx : x = id <;> simp [updIndex, upd, ratioQ, hx]

theorem swap_heap (p : ServerPool) (i j k : Nat) :
    (p.swap i j).heap k
      = (if k = j then p.heap i else if k = i then p.heap j else p.heap k) := by
  by_cases hkj : k = j
  · simp [ServerPool.swap, upd, hkj]
  · by_cases hki : k = i <;> simp [ServerPool.swap, upd, hkj, hki]

theorem swap_keyAt (p : ServerPool) (i j k : Nat) :
    keyAt (p.swap i j) k
      = keyAt p (if k = j then i else if k = i then j else k) := by
  have hstore : ∀ x, ratioQ ((p.swap i j).store x) = ratioQ (p.store x) := by
    intro x
    show ratioQ (updIndex (updIndex p.store (p.heap j) i) (p.heap i) j x) = _
    rw [ratioQ_updIndex, ratioQ_updIndex]
  show ratioQ ((p.swap i j).store ((p.swap i j).heap k)) = _
  rw [swap_heap, hstore]
  by_cases hkj : k = j
  · simp [keyAt, ServerPool.atPos, hkj]
  · by_cases hki : k = i
    · have hij : ¬ i = j := by rw [← hki]; exact hkj
      simp [keyAt, ServerPool.atPos, hkj, hki, hij]
    · simp [keyAt, ServerPool.atPos, hkj, hki]

theorem swap_weightAt (p : ServerPool) (i j k : Nat) :
    ((p.swap i j).atPos k).Weight
      = (p.atPos (if k = j then i else if k = i then j else k)).Weight := by
  have hstore : ∀ x, ((p.swap i j).store x).Weight = (p.store x).Weight := by
    intro x
    show ((updIndex (updIndex p.store (p.heap j) i) (p.heap i) j) x).Weight = _
    rw [(updIndex_load _ _ _ x).2.1, (updIndex_load _ _ _ x).2.1]
  show ((p.swap i j).store ((p.swap i j).heap k)).Weight = _
  rw [swap_heap, hstore]
  by_cases hkj : k = j
  · simp [ServerPool.atPos, hkj]
  · by_cases hki : k = i
    · have hij : ¬ i = j := by rw [← hki]; exact hkj
      simp [ServerPool.atPos, hkj, hki, hij]
    · simp [ServerPool.atPos, hkj, hki]

theorem coherent_inj {p : ServerPool} (hC : Coherent p) {k1 k2 : Nat}
    (h1 : k1 < p.hlen) (h2 : k2 < p.hlen) (he : p.heap k1 = p.heap k2) :
    k1 = k2 := by
  have e1 := hC k1 h1
  have e2 := hC k2 h2
  unfold ServerPool.atPos at e1 e2
  rw [he] at e1
  rw [e1] at e2
  exact_mod_cast e2

theorem swap_coherent {p : ServerPool} {i j : Nat} (hC : Coherent p)
    (hi : i < p.hlen) (hj : j < p.hlen) : Coherent (p.swap i j) := by
  intro k hk
  rw [swap_hlen] at hk
  unfold ServerPool.atPos
  rw [swap_heap]
  by_cases hkj : k = j
  · subst hkj
    rw [if_pos rfl]
    show ((updIndex (updIndex p.store (p.heap k) i) (p.heap i) k) (p.heap i)).Index = _
    rw [updIndex_index_self]
  · rw [if_neg hkj]
    by_cases hki : k = i
    · subst hki
      rw [if_pos rfl]
      have hne : p.heap j ≠ p.heap k := by
        intro he
        exact hkj (coherent_inj hC hj hk he).symm
      show ((updIndex (updIndex p.store (p.heap j) k) (p.heap k) j) (p.heap j)).Index = _
      rw [updIndex_index_other _ _ _ _ hne, updIndex_index_self]
    · rw [if_neg hki]
      have hne1 : p.heap k ≠ p.heap i := fun he => hki (coherent_inj hC hk hi he)
      have hne2 : p.heap k ≠ p.heap j := fun he => hkj (coherent_inj hC hk hj he)
      show ((updIndex (updIndex p.store (p.heap j) i) (p.heap i) j) (p.heap k)).Index = _
      rw [updIndex_index_other _ _ _ _ hne1, updIndex_index_other _ _ _ _ hne2]
      exact hC k hk

theorem swap_absent {p : ServerPool} {i j : Nat} (hA : AbsentClean p)
    (hi : i < p.hlen) (hj : j < p.hlen) : AbsentClean (p.swap i j) := by
  intro id hout
  rw [swap_hlen] at hout
  have hout' : ∀ k, k < p.hlen → p.heap k ≠ id := by
    intro k hk
    by_cases hki : k = i
    · subst hki
      have := hout j hj
      rw [swap_heap] at this
      simpa using this
    · by_cases hkj : k = j
      · subst hkj
        have := hout i hi
        rw [swap_heap] at this
        by_cases hij : i = k
        · subst hij; simpa using this
        · simpa [hij, hki] using this
      · have := hout k hk
        rw [swap_heap, if_neg hkj, if_neg hki] at this
        exact this
  have hbase := hA id hout'
  have hne1 : id ≠ p.heap i := fun he => hout' i hi he.symm
  have hne2 : id ≠ p.heap j := fun he => hout' j hj he.symm
  show ((updIndex (updIndex p.store (p.heap j) i) (p.heap i) j) id).Index = -1
  rw [updIndex_index_other _ _ _ _ hne1, updIndex_index_other _ _ _ _ hne2]
  exact hbase

theorem swap_posWeights {p : ServerPool} {i j : Nat} (hW : PosWeights p)
    (hi : i < p.hlen) (hj : j < p.hlen) : PosWeights (p.swap i j) := by
  intro k hk
  rw [swap_hlen] at hk
  rw [swap_weightAt]
  by_cases hkj : k = j
  · rw [if_pos hkj]; exact hW i hi
  · rw [if_neg hkj]
    by_cases hki : k = i
    · rw [if_pos hki]; exact hW j hj
    · rw [if_neg hki]; exact hW k hk

/-- Correctness of the `up` sift loop: starting from a state whose heap
order (up to boundary `m`) holds at every edge except possibly the one
from `j` to its parent, and in which both children of `j` dominate even
`j`'s parent, `up` restores the heap order everywhere below `m` while
preserving coherence, absent-cleanliness, positive weights, the length,
and all slots at or beyond `m`. -/
theorem upFuel_spec (fuel : Nat) :
    ∀ (p : ServerPool) (j m : Nat),
    j < fuel → j < m → m ≤ p.hlen →
    Coherent p → AbsentClean p → PosWeights p →
    (∀ k, 0 < k → k < m → k ≠ j → keyAt p ((k - 1) / 2) ≤ keyAt p k) →
    (∀ c, c < m → (c = 2 * j + 1 ∨ c = 2 * j + 2) → 0 < j →
      keyAt p ((j - 1) / 2) ≤ keyAt p c) →
    (upFuel fuel p j).hlen = p.hlen ∧
    Coherent (upFuel fuel p j) ∧
    AbsentClean (upFuel fuel p j) ∧
    PosWeights (upFuel fuel p j) ∧
    (∀ k, 0 < k → k < m →
      keyAt (upFuel fuel p j) ((k - 1) / 2) ≤ keyAt (upFuel fuel p j) k) ∧
    (∀ k, m ≤ k → (upFuel fuel p j).heap k = p.heap k) := by
  induction fuel with
  | zero => intro p j m hfuel _ _ _ _ _ _ _; omega
  | succ fuel ih =>
    intro p j m hfuel hjm hm hC hA hW H1 H2
    by_cases h0 : j = 0
    · have hq : upFuel (fuel + 1) p j = p := by
        show (if j = 0 then p
              else if lessAt p j ((j - 1) / 2)
                   then upFuel fuel (p.swap ((j - 1) / 2) j) ((j - 1) / 2)
                   else p) = p
        rw [if_pos h0]
      rw [hq]
      exact ⟨rfl, hC, hA, hW,
        fun k hk0 hkm => H1 k hk0 hkm (by omega), fun k _ => rfl⟩
    · have hj0 : 0 < j := Nat.pos_of_ne_zero h0
      have hjlen : j < p.hlen := lt_of_lt_of_le hjm hm
      have hilt : (j - 1) / 2 < j := parent_lt hj0
      have hilen : (j - 1) / 2 < p.hlen := lt_trans hilt hjlen
      cases hl : lessAt p j ((j - 1) / 2) with
      | false =>
        have hq : upFuel (fuel + 1) p j = p := by
          show (if j = 0 then p
                else if lessAt p j ((j - 1) / 2)
                     then upFuel fuel (p.swap ((j - 1) / 2) j) ((j - 1) / 2)
                     else p) = p
          rw [if_neg h0, hl]
          simp
        rw [hq]
        refine ⟨rfl, hC, hA, hW, fun k hk0 hkm => ?_, fun k _ => rfl⟩
        by_cases hkj : k = j
        · subst hkj
          exact (lessAt_false_iff p (hW k hjlen) (hW _ hilen)).mp hl
        · exact H1 k hk0 hkm hkj
      | true =>
        set i := (j - 1) / 2 with hidef
        have hq : upFuel (fuel + 1) p j = upFuel fuel (p.swap i j) i := by
          show (if j = 0 then p
                else if lessAt p j ((j - 1) / 2)
                     then upFuel fuel (p.swap ((j - 1) / 2) j) ((j - 1) / 2)
                     else p) = _
          rw [if_neg h0, hl]
          simp
        set p' := p.swap i j with hp'
        have hC' : Coherent p' := swap_coherent hC hilen hjlen
        have hA' : AbsentClean p' := swap_absent hA hilen hjlen
        have hW' : PosWeights p' := swap_posWeights hW hilen hjlen
        have hlen' : p'.hlen = p.hlen := swap_hlen p i j
        have hkj' : keyAt p' j = keyAt p i := by
          rw [hp', swap_keyAt]; simp
        have hij : ¬ i = j := by omega
        have hki' : keyAt p' i = keyAt p j := by
          rw [hp', swap_keyAt]; simp [hij]
        have hkother : ∀ x, x ≠ i → x ≠ j → keyAt p' x = keyAt p x := by
          intro x h1 h2
          rw [hp', swap_keyAt, if_neg h2, if_neg h1]
        have hlt : keyAt p j < keyAt p i :=
          (lessAt_true_iff p (hW j hjlen) (hW i hilen)).mp hl
        have hchild : j = 2 * i + 1 ∨ j = 2 * i + 2 := parent_child_cases hj0
        have H1' : ∀ k, 0 < k → k < m → k ≠ i →
            keyAt p' ((k - 1) / 2) ≤ keyAt p' k := by
          intro k hk0 hkm hkni
          by_cases hkj : k = j
          · subst hkj
            rw [show (k - 1) / 2 = i from rfl, hki', hkj']
            exact le_of_lt hlt
          · by_cases hpkj : (k - 1) / 2 = j
            · have hch : k = 2 * j + 1 ∨ k = 2 * j + 2 := by
                have := parent_child_cases hk0
                rw [hpkj] at this
                exact this
              rw [hpkj, hkj', hkother k hkni hkj]
              exact H2 k hkm hch hj0
            · by_cases hpki : (k - 1) / 2 = i
              · rw [hpki, hki', hkother k hkni hkj]
                refine le_trans (le_of_lt hlt) ?_
                have := H1 k hk0 hkm hkj
                rw [hpki] at this
                exact this
              · rw [hkother ((k - 1) / 2) hpki hpkj, hkother k hkni hkj]
                exact H1 k hk0 hkm hkj
        have H2' : ∀ c, c < m → (c = 2 * i + 1 ∨ c = 2 * i + 2) → 0 < i →
            keyAt p' ((i - 1) / 2) ≤ keyAt p' c := by
          intro c hcm hcch hi0
          have hgi : (i - 1) / 2 < i := parent_lt hi0
          have hgnej : ¬ (i - 1) / 2 = j := by omega
          have hgnei : ¬ (i - 1) / 2 = i := by omega
          have hpar : keyAt p ((i - 1) / 2) ≤ keyAt p i :=
            H1 i hi0 (lt_trans hilt hjm) hij
          rw [hkother ((i - 1) / 2) hgnei hgnej]
          by_cases hcj : c = j
          · subst hcj
            rw [hkj']
            exact hpar
          · have hcnei : ¬ c = i := by omega
            rw [hkother c hcnei hcj]
            have hc0 : 0 < c := by omega
            have hcpar : (c - 1) / 2 = i := by
              rcases hcch with h | h <;> omega
            have := H1 c hc0 hcm hcj
            rw [hcpar] at this
            exact le_trans hpar this
        have hres := ih p' i m (by omega) (by omega) (by omega) hC' hA' hW' H1' H2'
        rw [hq]
        refine ⟨hres.1.trans hlen', hres.2.1, hres.2.2.1, hres.2.2.2.1,
          hres.2.2.2.2.1, fun k hk => ?_⟩
        rw [hres.2.2.2.2.2 k hk, hp', swap_heap,
          if_neg (by omega), if_neg (by omega)]

/-- Correctness of the `down` sift loop below boundary `n`: starting
from a state whose heap order below `n` holds at every edge except
possibly the two from the children of `i`, and in which both children
of `i` dominate `i`'s parent, `down` restores every edge except
possibly the one from `i` to its parent; if the element moved, that
edge holds as well, and if it did not move the state is returned
unchanged with both children dominating `i`.  Coherence,
absent-cleanliness, positive weights, the length, the slots at or
beyond `n` and the keys strictly below `i` are preserved. -/
theorem downFuel_spec (fuel : Nat) :
    ∀ (p : ServerPool) (i n : Nat),
    n - i ≤ fuel → i < n → n ≤ p.hlen →
    Coherent p → AbsentClean p → PosWeights p →
    (∀ k, 0 < k → k < n → k ≠ 2 * i + 1 → k ≠ 2 * i + 2 → k ≠ i →
      keyAt p ((k - 1) / 2) ≤ keyAt p k) →
    (∀ c, c < n → (c = 2 * i + 1 ∨ c = 2 * i + 2) → 0 < i →
      keyAt p ((i - 1) / 2) ≤ keyAt p c) →
    (downFuel fuel p i n).1.hlen = p.hlen ∧
    Coherent (downFuel fuel p i n).1 ∧
    AbsentClean (downFuel fuel p i n).1 ∧
    PosWeights (downFuel fuel p i n).1 ∧
    (∀ k, 0 < k → k < n → k ≠ i →
      keyAt (downFuel fuel p i n).1 ((k - 1) / 2)
        ≤ keyAt (downFuel fuel p i n).1 k) ∧
    (∀ k, n ≤ k → (downFuel fuel p i n).1.heap k = p.heap k) ∧
    (∀ k, k < i → keyAt (downFuel fuel p i n).1 k = keyAt p k) ∧
    i ≤ (downFuel fuel p i n).2 ∧
    (i < (downFuel fuel p i n).2 → 0 < i →
      keyAt (downFuel fuel p i n).1 ((i - 1) / 2)
        ≤ keyAt (downFuel fuel p i n).1 i) ∧
    ((downFuel fuel p i n).2 = i → (downFuel fuel p i n).1 = p ∧
      (∀ c, c < n → (c = 2 * i + 1 ∨ c = 2 * i + 2) →
        keyAt p i ≤ keyAt p c)) := by
  induction fuel with
  | zero => intro p i n hfuel hin _ _ _ _ _ _; omega
  | succ fuel ih =>
    intro p i n hfuel hin hn hC hA hW D1 D2
    have hilen : i < p.hlen := lt_of_lt_of_le hin hn
    have hbody : downFuel (fuel + 1) p i n
        = if 2 * i + 1 < n then
            (if lessAt p
                  (if 2 * i + 2 < n ∧ lessAt p (2 * i + 2) (2 * i + 1)
                   then 2 * i + 2 else 2 * i + 1) i
             then downFuel fuel
                (p.swap i
                  (if 2 * i + 2 < n ∧ lessAt p (2 * i + 2) (2 * i + 1)
                   then 2 * i + 2 else 2 * i + 1))
                (if 2 * i + 2 < n ∧ lessAt p (2 * i + 2) (2 * i + 1)
                 then 2 * i + 2 else 2 * i + 1) n
             else (p, i))
          else (p, i) := rfl
    by_cases hg : 2 * i + 1 < n
    · set j := (if 2 * i + 2 < n ∧ lessAt p (2 * i + 2) (2 * i + 1)
                then 2 * i + 2 else 2 * i + 1) with hjdef
      have hstep : downFuel (fuel + 1) p i n
          = if lessAt p j i then downFuel fuel (p.swap i j) j n
            else (p, i) := by
        rw [hbody, if_pos hg]
      have hjch : j = 2 * i + 1 ∨ j = 2 * i + 2 := by
        by_cases hc : 2 * i + 2 < n ∧ lessAt p (2 * i + 2) (2 * i + 1) = true
        · rw [hjdef, if_pos hc]; right; rfl
        · rw [hjdef, if_neg hc]; left; rfl
      have hjn : j < n := by
        by_cases hc : 2 * i + 2 < n ∧ lessAt p (2 * i + 2) (2 * i + 1) = true
        · rw [hjdef, if_pos hc]; exact hc.1
        · rw [hjdef, if_neg hc]; exact hg
      have hji : i < j := by omega
      have hjlen : j < p.hlen := lt_of_lt_of_le hjn hn
      have hmin : ∀ c, c < n → (c = 2 * i + 1 ∨ c = 2 * i + 2) →
          keyAt p j ≤ keyAt p c := by
        intro c hcn hcch
        by_cases hc : 2 * i + 2 < n ∧ lessAt p (2 * i + 2) (2 * i + 1) = true
        · have hj2 : j = 2 * i + 2 := by rw [hjdef, if_pos hc]
          have hlt2 : keyAt p (2 * i + 2) < keyAt p (2 * i + 1) :=
            (lessAt_true_iff p (hW _ (lt_of_lt_of_le hc.1 hn))
              (hW _ (lt_of_lt_of_le hg hn))).mp hc.2
          rcases hcch with h | h
          · rw [hj2, h]; exact le_of_lt hlt2
          · rw [hj2, h]
        · have hj1 : j = 2 * i + 1 := by rw [hjdef, if_neg hc]
          rcases hcch with h | h
          · rw [hj1, h]
          · have hc2n : 2 * i + 2 < n := by omega
            have hfls : lessAt p (2 * i + 2) (2 * i + 1) = false := by
              cases hcase : lessAt p (2 * i + 2) (2 * i + 1)
              · rfl
              · exact absurd ⟨hc2n, hcase⟩ hc
            have := (lessAt_false_iff p (hW _ (lt_of_lt_of_le hc2n hn))
              (hW _ (lt_of_lt_of_le hg hn))).mp hfls
            rw [hj1, h]; exact this
      cases hl : lessAt p j i with
      | false =>
        have hstep2 : downFuel (fuel + 1) p i n = (p, i) := by
          rw [hstep, hl]; simp
        have hile : keyAt p i ≤ keyAt p j :=
          (lessAt_false_iff p (hW j hjlen) (hW i hilen)).mp hl
        have hdom : ∀ c, c < n → (c = 2 * i + 1 ∨ c = 2 * i + 2) →
            keyAt p i ≤ keyAt p c :=
          fun c hcn hcch => le_trans hile (hmin c hcn hcch)
        rw [hstep2]
        refine ⟨rfl, hC, hA, hW, ?_, fun k _ => rfl, fun k _ => rfl,
          le_refl i, fun h => absurd h (by omega), fun _ => ⟨rfl, hdom⟩⟩
        intro k hk0 hkn hkni
        by_cases hpk : (k - 1) / 2 = i
        · have hch : k = 2 * i + 1 ∨ k = 2 * i + 2 := by
            have := parent_child_cases hk0
            rw [hpk] at this
            exact this
          rw [hpk]
          exact hdom k hkn hch
        · have hk1 : k ≠ 2 * i + 1 := by
            intro he; apply hpk; rw [he]; omega
          have hk2 : k ≠ 2 * i + 2 := by
            intro he; apply hpk; rw [he]; omega
          exact D1 k hk0 hkn hk1 hk2 hkni
      | true =>
        have hlt : keyAt p j < keyAt p i :=
          (lessAt_true_iff p (hW j hjlen) (hW i hilen)).mp hl
        set p1 := p.swap i j with hp1
        have hstep2 : downFuel (fuel + 1) p i n = downFuel fuel p1 j n := by
          rw [hstep, hl]; simp
        have hC1 : Coherent p1 := swap_coherent hC hilen hjlen
        have hA1 : AbsentClean p1 := swap_absent hA hilen hjlen
        have hW1 : PosWeights p1 := swap_posWeights hW hilen hjlen
        have hlen1 : p1.hlen = p.hlen := swap_hlen p i j
        have hijne : ¬ i = j := by omega
        have hkeyi : keyAt p1 i = keyAt p j := by
          rw [hp1, swap_keyAt]; simp [hijne]
        have hkeyj : keyAt p1 j = keyAt p i := by
          rw [hp1, swap_keyAt]; simp
        have hkeyo : ∀ x, x ≠ i → x ≠ j → keyAt p1 x = keyAt p x := by
          intro x h1 h2
          rw [hp1, swap_keyAt, if_neg h2, if_neg h1]
        have hjpar : (j - 1) / 2 = i := by rcases hjch with h | h <;> omega
        have D1' : ∀ k, 0 < k → k < n → k ≠ 2 * j + 1 → k ≠ 2 * j + 2 →
            k ≠ j → keyAt p1 ((k - 1) / 2) ≤ keyAt p1 k := by
          intro k hk0 hkn hkc1 hkc2 hknj
          by_cases hki : k = i
          · subst hki
            have hgne1 : (k - 1) / 2 ≠ k := by omega
            have hgne2 : (k - 1) / 2 ≠ j := by omega
            rw [hkeyo ((k - 1) / 2) hgne1 hgne2, hkeyi]
            exact D2 j hjn hjch hk0
          · by_cases hpk : (k - 1) / 2 = i
            · have hch : k = 2 * i + 1 ∨ k = 2 * i + 2 := by
                have := parent_child_cases hk0
                rw [hpk] at this
                exact this
              rw [hpk, hkeyi, hkeyo k hki hknj]
              exact hmin k hkn hch
            · have hpkj : (k - 1) / 2 ≠ j := by
                intro he
                have := parent_child_cases hk0
                rw [he] at this
                rcases this with h | h
                · exact hkc1 h
                · exact hkc2 h
              have hk1 : k ≠ 2 * i + 1 := by
                intro he; apply hpk; rw [he]; omega
              have hk2 : k ≠ 2 * i + 2 := by
                intro he; apply hpk; rw [he]; omega
              rw [hkeyo ((k - 1) / 2) hpk hpkj, hkeyo k hki hknj]
              exact D1 k hk0 hkn hk1 hk2 hki
        have D2' : ∀ c, c < n → (c = 2 * j + 1 ∨ c = 2 * j + 2) → 0 < j →
            keyAt p1 ((j - 1) / 2) ≤ keyAt p1 c := by
          intro c hcn hcch _
          have hcni : c ≠ i := by omega
          have hcnj : c ≠ j := by omega
          have hc0 : 0 < c := by omega
          have hcpar : (c - 1) / 2 = j := by rcases hcch with h | h <;> omega
          have hck1 : c ≠ 2 * i + 1 := by omega
          have hck2 : c ≠ 2 * i + 2 := by omega
          rw [hjpar, hkeyi, hkeyo c hcni hcnj]
          have := D1 c hc0 hcn hck1 hck2 hcni
          rw [hcpar] at this
          exact this
        obtain ⟨R1, R2, R3, R4, R5, R6, R7, R8, R9, R10⟩ :=
          ih p1 j n (by omega) hjn (by rw [hlen1]; exact hn) hC1 hA1 hW1 D1' D2'
        rw [hstep2]
        refine ⟨R1.trans hlen1, R2, R3, R4, ?_, ?_, ?_, by omega, ?_, ?_⟩
        · intro k hk0 hkn hkni
          by_cases hkj : k = j
          · subst hkj
            rw [hjpar]
            by_cases hmoved : j < (downFuel fuel p1 j n).2
            · have := R9 hmoved (by omega)
              rw [hjpar] at this
              exact this
            · have hr2 : (downFuel fuel p1 j n).2 = j :=
                le_antisymm (not_lt.mp hmoved) R8
              obtain ⟨heq, _⟩ := R10 hr2
              rw [heq, hkeyi, hkeyj]
              exact le_of_lt hlt
          · exact R5 k hk0 hkn hkj
        · intro k hk
          rw [R6 k hk, hp1, swap_heap, if_neg (by omega), if_neg (by omega)]
        · intro k hk
          rw [R7 k (by omega), hkeyo k (by omega) (by omega)]
        · intro _ hi0
          have hgne1 : (i - 1) / 2 ≠ i := by omega
          have hgne2 : (i - 1) / 2 ≠ j := by omega
          rw [R7 i hji, R7 ((i - 1) / 2) (by omega), hkeyi,
            hkeyo ((i - 1) / 2) hgne1 hgne2]
          exact D2 j hjn hjch hi0
        · intro h
          exact absurd h (by omega)
    · have hstep2 : downFuel (fuel + 1) p i n = (p, i) := by
        rw [hbody, if_neg hg]
      rw [hstep2]
      refine ⟨rfl, hC, hA, hW, ?_, fun k _ => rfl, fun k _ => rfl,
        le_refl i, fun h => absurd h (by omega),
        fun _ => ⟨rfl, fun c hcn hcch => by omega⟩⟩
      intro k hk0 hkn hkni
      have hk1 : k ≠ 2 * i + 1 := by omega
      have hk2 : k ≠ 2 * i + 2 := by omega
      exact D1 k hk0 hkn hk1 hk2 hkni

/-- Correctness of `heap.Fix` at `i`: if the heap order holds at every
edge not touching `i` and both children of `i` dominate `i`'s parent —
exactly the situation after the key at `i` changed arbitrarily in a
well-ordered heap — then `Fix` (down, then up if nothing moved)
restores the full heap order and preserves the other invariants. -/
theorem heapFix_spec (p : ServerPool) (i : Nat)
    (hi : i < p.hlen) (hC : Coherent p) (hA : AbsentClean p)
    (hW : PosWeights p)
    (H1 : ∀ k, 0 < k → k < p.hlen → k ≠ 2 * i + 1 → k ≠ 2 * i + 2 →
      k ≠ i → keyAt p ((k - 1) / 2) ≤ keyAt p k)
    (H2 : ∀ c, c < p.hlen → (c = 2 * i + 1 ∨ c = 2 * i + 2) → 0 < i →
      keyAt p ((i - 1) / 2) ≤ keyAt p c) :
    (heapFix p i).hlen = p.hlen ∧ Coherent (heapFix p i) ∧
    AbsentClean (heapFix p i) ∧ PosWeights (heapFix p i) ∧
    HeapProp (heapFix p i) := by
  obtain ⟨R1, R2, R3, R4, R5, R6, R7, R8, R9, R10⟩ :=
    downFuel_spec p.hlen p i p.hlen (by omega) hi (le_refl _) hC hA hW H1 H2
  have hbody : heapFix p i
      = if decide (i < (downFuel p.hlen p i p.hlen).2)
        then (downFuel p.hlen p i p.hlen).1
        else up (downFuel p.hlen p i p.hlen).1 i := rfl
  by_cases hm : i < (downFuel p.hlen p i p.hlen).2
  · have hq : heapFix p i = (downFuel p.hlen p i p.hlen).1 := by
      rw [hbody, decide_eq_true hm]
      simp
    rw [hq]
    refine ⟨R1, R2, R3, R4, fun k hk0 hkl => ?_⟩
    have hkn : k < p.hlen := by rw [← R1]; exact hkl
    by_cases hki : k = i
    · subst hki
      exact R9 hm hk0
    · exact R5 k hk0 hkn hki
  · have hr2 : (downFuel p.hlen p i p.hlen).2 = i :=
      le_antisymm (not_lt.mp hm) R8
    obtain ⟨heq, hdom⟩ := R10 hr2
    have hq : heapFix p i = up p i := by
      rw [hbody, decide_eq_false hm]
      simp [heq]
    have H1up : ∀ k, 0 < k → k < p.hlen → k ≠ i →
        keyAt p ((k - 1) / 2) ≤ keyAt p k := by
      intro k hk0 hkn hki
      by_cases hpk : (k - 1) / 2 = i
      · have hch : k = 2 * i + 1 ∨ k = 2 * i + 2 := by
          have := parent_child_cases hk0
          rw [hpk] at this
          exact this
        rw [hpk]
        exact hdom k hkn hch
      · have hk1 : k ≠ 2 * i + 1 := by omega
        have hk2 : k ≠ 2 * i + 2 := by omega
        exact H1 k hk0 hkn hk1 hk2 hki
    obtain ⟨U1, U2, U3, U4, U5, _⟩ :=
      upFuel_spec (i + 1) p i p.hlen (by omega) hi (le_refl _) hC hA hW
        H1up H2
    rw [hq]
    exact ⟨U1, U2, U3, U4, fun k hk0 hkl => U5 k hk0 (by rw [← U1]; exact hkl)⟩

/-- Index fields are untouched when only a record's count changes. -/
theorem activeSet_index (p : ServerPool) (id : Nat) (a' : Int) (y : Nat) :
    ((upd p.store id { p.store id with ActiveConnections := a' }) y).Index
      = (p.store y).Index := by
  by_cases hy : y = id <;> simp [upd, hy]

/-- Weights are untouched when only a record's count changes. -/
theorem activeSet_weight (p : ServerPool) (id : Nat) (a' : Int) (y : Nat) :
    ((upd p.store id { p.store id with ActiveConnections := a' }) y).Weight
      = (p.store y).Weight := by
  by_cases hy : y = id <;> simp [upd, hy]

/-- Core preservation argument shared by `IncrementActive` and
`DecrementActive`: overwriting one record's `ActiveConnections` and
then running `heap.Fix` at its index (when present) keeps the full
selector invariant. -/
theorem activeSet_WF (p p1 : ServerPool) (id : Nat) (a' : Int)
    (hp1 : p1 = ⟨upd p.store id
      { p.store id with ActiveConnections := a' }, p.heap, p.hlen⟩)
    (hWF : WF p) :
    WF (if (p1.store id).Index ≠ -1
        then heapFix p1 ((p1.store id).Index).toNat else p1) ∧
    (if (p1.store id).Index ≠ -1
     then heapFix p1 ((p1.store id).Index).toNat else p1).hlen = p.hlen := by
  obtain ⟨hC, hA, hW, hH⟩ := hWF
  have hidxeq : ∀ y, (p1.store y).Index = (p.store y).Index := by
    intro y; rw [hp1]; exact activeSet_index p id a' y
  have hweq : ∀ y, (p1.store y).Weight = (p.store y).Weight := by
    intro y; rw [hp1]; exact activeSet_weight p id a' y
  have hheap : p1.heap = p.heap := by rw [hp1]
  have hhlen : p1.hlen = p.hlen := by rw [hp1]
  have hC1 : Coherent p1 := by
    intro x hx
    unfold ServerPool.atPos
    rw [hheap, hidxeq]
    exact hC x (by rw [← hhlen]; exact hx)
  have hA1 : AbsentClean p1 := by
    intro y hy
    rw [hidxeq]
    refine hA y (fun x hx => ?_)
    have := hy x (by rw [hhlen]; exact hx)
    rw [hheap] at this
    exact this
  have hW1 : PosWeights p1 := by
    intro x hx
    unfold ServerPool.atPos
    rw [hheap, hweq]
    exact hW x (by rw [← hhlen]; exact hx)
  by_cases hcond : (p1.store id).Index ≠ -1
  · rw [if_pos hcond]
    have hidx : (p.store id).Index ≠ -1 := by rw [← hidxeq]; exact hcond
    have hin : ∃ k, k < p.hlen ∧ p.heap k = id := by
      by_contra hout
      push_neg at hout
      exact hidx (hA id hout)
    obtain ⟨k, hk, hke⟩ := hin
    have hidxk : (p.store id).Index = (k : Int) := by
      have := hC k hk
      unfold ServerPool.atPos at this
      rw [hke] at this
      exact this
    have htonat : ((p1.store id).Index).toNat = k := by
      rw [hidxeq, hidxk]
      exact Int.toNat_natCast k
    rw [htonat]
    have hkeyo : ∀ x, x < p.hlen → x ≠ k → keyAt p1 x = keyAt p x := by
      intro x hx hxk
      have hne : p.heap x ≠ id := by
        intro he
        exact hxk (coherent_inj hC hx hk (he.trans hke.symm))
      unfold keyAt ServerPool.atPos
      rw [hheap, hp1]
      show ratioQ (upd p.store id _ (p.heap x)) = _
      rw [upd_other _ _ _ _ hne]
    have H1 : ∀ x, 0 < x → x < p1.hlen → x ≠ 2 * k + 1 → x ≠ 2 * k + 2 →
        x ≠ k → keyAt p1 ((x - 1) / 2) ≤ keyAt p1 x := by
      intro x hx0 hxl hx1 hx2 hxk
      rw [hhlen] at hxl
      have hpxk : (x - 1) / 2 ≠ k := by
        intro he
        have := parent_child_cases hx0
        rw [he] at this
        rcases this with h | h
        · exact hx1 h
        · exact hx2 h
      rw [hkeyo x hxl hxk, hkeyo ((x - 1) / 2) (by omega) hpxk]
      exact hH x hx0 hxl
    have H2 : ∀ c, c < p1.hlen → (c = 2 * k + 1 ∨ c = 2 * k + 2) →
        0 < k → keyAt p1 ((k - 1) / 2) ≤ keyAt p1 c := by
      intro c hcl hcch hk0
      rw [hhlen] at hcl
      have hcnk : c ≠ k := by omega
      have hpar : (k - 1) / 2 ≠ k := by omega
      have hcpar : (c - 1) / 2 = k := by rcases hcch with h | h <;> omega
      rw [hkeyo c hcl hcnk, hkeyo ((k - 1) / 2) (by omega) hpar]
      have h1 := hH k hk0 hk
      have h2 := hH c (by omega) hcl
      rw [hcpar] at h2
      exact le_trans h1 h2
    obtain ⟨F1, F2, F3, F4, F5⟩ :=
      heapFix_spec p1 k (by rw [hhlen]; exact hk) hC1 hA1 hW1 H1 H2
    exact ⟨⟨F2, F3, F4, F5⟩, F1.trans hhlen⟩
  · rw [if_neg hcond]
    have hidx : (p.store id).Index = -1 := by
      rw [← hidxeq]
      exact not_not.mp (fun h => hcond h)
    have hnotin : ∀ x, x < p.hlen → p.heap x ≠ id := by
      intro x hx he
      have := hC x hx
      unfold ServerPool.atPos at this
      rw [he, hidx] at this
      omega
    have hkeyall : ∀ x, x < p.hlen → keyAt p1 x = keyAt p x := by
      intro x hx
      unfold keyAt ServerPool.atPos
      rw [hheap, hp1]
      show ratioQ (upd p.store id _ (p.heap x)) = _
      rw [upd_other _ _ _ _ (hnotin x hx)]
    refine ⟨⟨hC1, hA1, hW1, fun x hx0 hxl => ?_⟩, hhlen⟩
    rw [hhlen] at hxl
    rw [hkeyall x hxl, hkeyall ((x - 1) / 2) (by omega)]
    exact hH x hx0 hxl

theorem IncrementActive_WF (p : ServerPool) (id : Nat) (hWF : WF p) :
    WF (IncrementActive p id) ∧ (IncrementActive p id).hlen = p.hlen :=
  activeSet_WF p _ id ((p.store id).ActiveConnections + 1) rfl hWF

theorem DecrementActive_WF (p : ServerPool) (id : Nat) (hWF : WF p) :
    WF (DecrementActive p id) ∧ (DecrementActive p id).hlen = p.hlen :=
  activeSet_WF p _ id ((p.store id).ActiveConnections - 1) rfl hWF

/-- `AddServer` on a currently-absent record with positive weight
preserves the selector invariant and grows the array by one. -/
theorem AddServer_WF (p : ServerPool) (id : Nat) (hWF : WF p)
    (habs : (p.store id).Index = -1) (hw : 0 < (p.store id).Weight) :
    WF (AddServer p id) ∧ (AddServer p id).hlen = p.hlen + 1 := by
  obtain ⟨hC, hA, hW, hH⟩ := hWF
  have hnotin : ∀ k, k < p.hlen → p.heap k ≠ id := by
    intro k hk he
    have := hC k hk
    unfold ServerPool.atPos at this
    rw [he, habs] at this
    omega
  set p1 := p.pushItem id with hp1
  have hhlen1 : p1.hlen = p.hlen + 1 := rfl
  have hheap_new : p1.heap p.hlen = id := by
    rw [hp1]
    exact upd_self p.heap p.hlen id
  have hheap_old : ∀ k, k ≠ p.hlen → p1.heap k = p.heap k := by
    intro k hk
    rw [hp1]
    exact upd_other p.heap p.hlen id k hk
  have hstore_other : ∀ y, y ≠ id → p1.store y = p.store y := by
    intro y hy
    rw [hp1]
    exact updIndex_index_other p.store id (Int.ofNat p.hlen) y hy
  have hC1 : Coherent p1 := by
    intro k hk
    rw [hhlen1] at hk
    unfold ServerPool.atPos
    by_cases hkh : k = p.hlen
    · subst hkh
      rw [hheap_new, hp1]
      show ((updIndex p.store id (Int.ofNat p.hlen)) id).Index = _
      rw [updIndex_index_self]
      rfl
    · have hkl : k < p.hlen := by omega
      rw [hheap_old k hkh, hstore_other (p.heap k) (hnotin k hkl)]
      exact hC k hkl
  have hA1 : AbsentClean p1 := by
    intro y hy
    have hyne : y ≠ id := by
      intro he
      exact hy p.hlen (by omega) (by rw [hheap_new, he])
    rw [hstore_other y hyne]
    refine hA y (fun k hk => ?_)
    have := hy k (by omega)
    rw [hheap_old k (by omega)] at this
    exact this
  have hW1 : PosWeights p1 := by
    intro k hk
    rw [hhlen1] at hk
    unfold ServerPool.atPos
    by_cases hkh : k = p.hlen
    · subst hkh
      rw [hheap_new, hp1]
      show 0 < ((updIndex p.store id (Int.ofNat p.hlen)) id).Weight
      rw [(updIndex_load p.store id (Int.ofNat p.hlen) id).2.1]
      exact hw
    · have hkl : k < p.hlen := by omega
      rw [hheap_old k hkh, hstore_other (p.heap k) (hnotin k hkl)]
      exact hW k hkl
  have hkeys : ∀ k, k < p.hlen → keyAt p1 k = keyAt p k := by
    intro k hk
    unfold keyAt ServerPool.atPos
    rw [hheap_old k (by omega), hstore_other (p.heap k) (hnotin k hk)]
  have H1 : ∀ k, 0 < k → k < p.hlen + 1 → k ≠ p.hlen →
      keyAt p1 ((k - 1) / 2) ≤ keyAt p1 k := by
    intro k hk0 hkm hkh
    have hkl : k < p.hlen := by omega
    rw [hkeys k hkl, hkeys ((k - 1) / 2) (by omega)]
    exact hH k hk0 hkl
  have H2 : ∀ c, c < p.hlen + 1 → (c = 2 * p.hlen + 1 ∨ c = 2 * p.hlen + 2) →
      0 < p.hlen → keyAt p1 ((p.hlen - 1) / 2) ≤ keyAt p1 c := by
    intro c hcm hcch _
    omega
  obtain ⟨U1, U2, U3, U4, U5, _⟩ :=
    upFuel_spec (p.hlen + 1) p1 p.hlen (p.hlen + 1) (by omega) (by omega)
      (by rw [hhlen1]) hC1 hA1 hW1 H1 H2
  have hq : AddServer p id = upFuel (p.hlen + 1) p1 p.hlen := rfl
  rw [hq]
  have hlenq : (upFuel (p.hlen + 1) p1 p.hlen).hlen = p.hlen + 1 :=
    U1.trans hhlen1
  exact ⟨⟨U2, U3, U4, fun k hk0 hkl => U5 k hk0 (by rw [← hlenq]; exact hkl)⟩,
    hlenq⟩

/-- Popping the last slot (known to hold `id`) from a state whose heap
order holds strictly below the last slot yields a well-formed pool in
which `id` is marked absent and no longer reachable. -/
theorem pop_finish (p2 : ServerPool) (id : Nat) (hpos : 0 < p2.hlen)
    (hC : Coherent p2) (hA : AbsentClean p2) (hW : PosWeights p2)
    (hHn : ∀ k, 0 < k → k < p2.hlen - 1 →
      keyAt p2 ((k - 1) / 2) ≤ keyAt p2 k)
    (hid : p2.heap (p2.hlen - 1) = id) :
    WF (p2.popItem).1 ∧ (p2.popItem).1.hlen = p2.hlen - 1 ∧
    ((p2.popItem).1.store id).Index = -1 ∧
    (∀ x, x < p2.hlen - 1 → (p2.popItem).1.heap x ≠ id) := by
  have hnotin : ∀ x, x < p2.hlen - 1 → p2.heap x ≠ id := by
    intro x hx he
    have hxe : x = p2.hlen - 1 :=
      coherent_inj hC (by omega) (by omega) (he.trans hid.symm)
    omega
  have hkeys : ∀ x, keyAt (p2.popItem).1 x = keyAt p2 x := by
    intro x
    unfold keyAt ServerPool.atPos
    exact ratioQ_updIndex p2.store (p2.heap (p2.hlen - 1)) (-1) (p2.heap x)
  refine ⟨⟨?_, ?_, ?_, ?_⟩, rfl, ?_, ?_⟩
  · intro x hx
    have hx' : x < p2.hlen - 1 := hx
    show ((updIndex p2.store (p2.heap (p2.hlen - 1)) (-1))
      (p2.heap x)).Index = (x : Int)
    rw [updIndex_index_other _ _ _ _ (fun he => hnotin x hx' (he.trans hid))]
    exact hC x (by omega)
  · intro y hy
    have hy' : ∀ x, x < p2.hlen - 1 → p2.heap x ≠ y := hy
    by_cases hyid : y = id
    · subst hyid
      show ((updIndex p2.store (p2.heap (p2.hlen - 1)) (-1)) y).Index = -1
      rw [hid, updIndex_index_self]
    · show ((updIndex p2.store (p2.heap (p2.hlen - 1)) (-1)) y).Index = -1
      rw [hid, updIndex_index_other _ _ _ _ hyid]
      refine hA y (fun x hx => ?_)
      by_cases hxl : x = p2.hlen - 1
      · rw [hxl, hid]; exact fun h => hyid h.symm
      · exact hy' x (by omega)
  · intro x hx
    have hx' : x < p2.hlen - 1 := hx
    show 0 < ((updIndex p2.store (p2.heap (p2.hlen - 1)) (-1))
      (p2.heap x)).Weight
    rw [(updIndex_load _ _ _ _).2.1]
    exact hW x (by omega)
  · intro x hx0 hxl
    have hx' : x < p2.hlen - 1 := hxl
    rw [hkeys x, hkeys ((x - 1) / 2)]
    exact hHn x hx0 hx'
  · show ((updIndex p2.store (p2.heap (p2.hlen - 1)) (-1)) id).Index = -1
    rw [hid, updIndex_index_self]
  · intro x hx
    show p2.heap x ≠ id
    exact hnotin x hx

/-- Setting the absent sentinel on a record not reachable from the heap
keeps the selector invariant. -/
theorem setIndex_outside_WF (q : ServerPool) (id : Nat) (hWF : WF q)
    (hnot : ∀ x, x < q.hlen → q.heap x ≠ id) :
    WF (⟨updIndex q.store id (-1), q.heap, q.hlen⟩ : ServerPool) := by
  obtain ⟨hC, hA, hW, hH⟩ := hWF
  have hkeys : ∀ x,
      keyAt (⟨updIndex q.store id (-1), q.heap, q.hlen⟩ : ServerPool) x
        = keyAt q x := by
    intro x
    unfold keyAt ServerPool.atPos
    exact ratioQ_updIndex q.store id (-1) (q.heap x)
  refine ⟨?_, ?_, ?_, ?_⟩
  · intro x hx
    unfold ServerPool.atPos
    show ((updIndex q.store id (-1)) (q.heap x)).Index = _
    rw [updIndex_index_other _ _ _ _ (hnot x hx)]
    exact hC x hx
  · intro y hy
    by_cases hyid : y = id
    · subst hyid
      show ((updIndex q.store y (-1)) y).Index = -1
      rw [updIndex_index_self]
    · show ((updIndex q.store id (-1)) y).Index = -1
      rw [updIndex_index_other _ _ _ _ hyid]
      exact hA y hy
  · intro x hx
    unfold ServerPool.atPos
    show 0 < ((updIndex q.store id (-1)) (q.heap x)).Weight
    rw [(updIndex_load _ _ _ _).2.1]
    exact hW x hx
  · intro x hx0 hxl
    rw [hkeys x, hkeys ((x - 1) / 2)]
    exact hH x hx0 hxl

/-- `RemoveServer` preserves the selector invariant (idempotently: on an
absent record it is a no-op). -/
theorem RemoveServer_WF (p : ServerPool) (id : Nat) (hWF : WF p) :
    WF (RemoveServer p id) := by
  obtain ⟨hC, hA, hW, hH⟩ := hWF
  unfold RemoveServer
  by_cases hcond : (p.store id).Index ≠ -1
  · rw [if_pos hcond]
    have hin : ∃ k, k < p.hlen ∧ p.heap k = id := by
      by_contra hout
      push_neg at hout
      exact hcond (hA id hout)
    obtain ⟨k, hk, hke⟩ := hin
    have hidxk : (p.store id).Index = (k : Int) := by
      have := hC k hk
      unfold ServerPool.atPos at this
      rw [hke] at this
      exact this
    have htonat : ((p.store id).Index).toNat = k := by
      rw [hidxk]; exact Int.toNat_natCast k
    rw [htonat]
    suffices hrem : WF (heapRemove p k) ∧
        (∀ x, x < (heapRemove p k).hlen → (heapRemove p k).heap x ≠ id) from
      setIndex_outside_WF (heapRemove p k) id hrem.1 hrem.2
    have hbody : heapRemove p k
        = if k = p.hlen - 1 then (p.popItem).1
          else
            (let p1 := p.swap k (p.hlen - 1)
             let r := down p1 k (p.hlen - 1)
             let p2 := if r.2 then r.1 else up r.1 k
             (p2.popItem).1) := rfl
    by_cases hkn : k = p.hlen - 1
    · have hrm : heapRemove p k = (p.popItem).1 := by rw [hbody, if_pos hkn]
      rw [hrm]
      have hid2 : p.heap (p.hlen - 1) = id := by rw [← hkn]; exact hke
      obtain ⟨hWFq, hlenq, _, hnoq⟩ :=
        pop_finish p id (by omega) hC hA hW
          (fun x hx0 hx => hH x hx0 (by omega)) hid2
      exact ⟨hWFq, fun x hx => hnoq x hx⟩
    · set n := p.hlen - 1 with hn
      have hkltn : k < n := by omega
      set p1 := p.swap k n with hp1
      have hC1 : Coherent p1 := swap_coherent hC (by omega) (by omega)
      have hA1 : AbsentClean p1 := swap_absent hA (by omega) (by omega)
      have hW1 : PosWeights p1 := swap_posWeights hW (by omega) (by omega)
      have hlen1 : p1.hlen = p.hlen := swap_hlen p k n
      have hkeyo : ∀ x, x ≠ k → x ≠ n → keyAt p1 x = keyAt p x := by
        intro x h1 h2
        rw [hp1, swap_keyAt, if_neg h2, if_neg h1]
      have hpn : p1.heap n = id := by
        rw [hp1, swap_heap, if_pos rfl]
        exact hke
      have D1 : ∀ x, 0 < x → x < n → x ≠ 2 * k + 1 → x ≠ 2 * k + 2 →
          x ≠ k → keyAt p1 ((x - 1) / 2) ≤ keyAt p1 x := by
        intro x hx0 hxn hx1 hx2 hxk
        have hpxk : (x - 1) / 2 ≠ k := by
          intro he
          have := parent_child_cases hx0
          rw [he] at this
          rcases this with h | h
          · exact hx1 h
          · exact hx2 h
        rw [hkeyo x hxk (by omega), hkeyo ((x - 1) / 2) hpxk (by omega)]
        exact hH x hx0 (by omega)
      have D2 : ∀ c, c < n → (c = 2 * k + 1 ∨ c = 2 * k + 2) → 0 < k →
          keyAt p1 ((k - 1) / 2) ≤ keyAt p1 c := by
        intro c hcn hcch hk0
        have hcpar : (c - 1) / 2 = k := by rcases hcch with h | h <;> omega
        rw [hkeyo c (by omega) (by omega),
          hkeyo ((k - 1) / 2) (by omega) (by omega)]
        have h1 := hH k hk0 (by omega)
        have h2 := hH c (by omega) (by omega)
        rw [hcpar] at h2
        exact le_trans h1 h2
      obtain ⟨R1, R2, R3, R4, R5, R6, R7, R8, R9, R10⟩ :=
        downFuel_spec n p1 k n (by omega) hkltn (by rw [hlen1]; omega)
          hC1 hA1 hW1 D1 D2
      set d := downFuel n p1 k n with hd
      have hrm : heapRemove p k
          = ((if (down p1 k n).2 then (down p1 k n).1
              else up (down p1 k n).1 k).popItem).1 := by
        rw [hbody, if_neg hkn]
      by_cases hm : k < d.2
      · have hp2 : (if (down p1 k n).2 then (down p1 k n).1
            else up (down p1 k n).1 k) = d.1 := by
          show (if decide (k < d.2) then d.1 else up d.1 k) = d.1
          rw [decide_eq_true hm]
          simp
        rw [hrm, hp2]
        have hlend : d.1.hlen = p.hlen := R1.trans hlen1
        have hHn : ∀ x, 0 < x → x < d.1.hlen - 1 →
            keyAt d.1 ((x - 1) / 2) ≤ keyAt d.1 x := by
          intro x hx0 hx
          rw [hlend] at hx
          by_cases hxk : x = k
          · subst hxk
            exact R9 hm hx0
          · exact R5 x hx0 (by omega) hxk
        have hid2 : d.1.heap (d.1.hlen - 1) = id := by
          rw [show d.1.hlen - 1 = n from by rw [hlend], R6 n (le_refl n), hpn]
        obtain ⟨hWFq, hlenq, _, hnoq⟩ :=
          pop_finish d.1 id (by rw [hlend]; omega) R2 R3 R4 hHn hid2
        exact ⟨hWFq, fun x hx => hnoq x hx⟩
      · have hr2 : d.2 = k := le_antisymm (not_lt.mp hm) R8
        obtain ⟨heq, hdom⟩ := R10 hr2
        have hp2 : (if (down p1 k n).2 then (down p1 k n).1
            else up (down p1 k n).1 k) = up p1 k := by
          show (if decide (k < d.2) then d.1 else up d.1 k) = up p1 k
          rw [decide_eq_false hm, heq]
          simp
        rw [hrm, hp2]
        have H1up : ∀ x, 0 < x → x < n → x ≠ k →
            keyAt p1 ((x - 1) / 2) ≤ keyAt p1 x := by
          intro x hx0 hxn hxk
          by_cases hpx : (x - 1) / 2 = k
          · have hch : x = 2 * k + 1 ∨ x = 2 * k + 2 := by
              have := parent_child_cases hx0
              rw [hpx] at this
              exact this
            rw [hpx]
            exact hdom x hxn hch
          · have hx1 : x ≠ 2 * k + 1 := by omega
            have hx2 : x ≠ 2 * k + 2 := by omega
            exact D1 x hx0 hxn hx1 hx2 hxk
        obtain ⟨U1, U2, U3, U4, U5, U6⟩ :=
          upFuel_spec (k + 1) p1 k n (by omega) hkltn (by rw [hlen1]; omega)
            hC1 hA1 hW1 H1up D2
        have hup : up p1 k = upFuel (k + 1) p1 k := rfl
        rw [hup]
        set q' := upFuel (k + 1) p1 k with hq'
        have hlenq' : q'.hlen = p.hlen := U1.trans hlen1
        have hHn : ∀ x, 0 < x → x < q'.hlen - 1 →
            keyAt q' ((x - 1) / 2) ≤ keyAt q' x := by
          intro x hx0 hx
          rw [hlenq'] at hx
          exact U5 x hx0 (by omega)
        have hid2 : q'.heap (q'.hlen - 1) = id := by
          rw [show q'.hlen - 1 = n from by rw [hlenq'], U6 n (le_refl n), hpn]
        obtain ⟨hWFq, hlenq, _, hnoq⟩ :=
          pop_finish q' id (by rw [hlenq']; omega) U2 U3 U4 hHn hid2
        exact ⟨hWFq, fun x hx => hnoq x hx⟩
  · rw [if_neg hcond]
    exact ⟨hC, hA, hW, hH⟩

/-- A legal run (every `add` on an absent, positively-weighted record)
preserves the full selector invariant. -/
theorem runOps_WF (ops : List PoolOp) :
    ∀ p, WF p → legalOps p ops = true → WF (runOps p ops) := by
  induction ops with
  | nil => intro p hWF _; exact hWF
  | cons op rest ih =>
    intro p hWF hleg
    cases op with
    | add id =>
      have hleg' : (((p.store id).Index == -1
          && decide (0 < (p.store id).Weight))
          && legalOps (applyOp p (PoolOp.add id)) rest) = true := hleg
      rw [Bool.and_eq_true, Bool.and_eq_true, beq_iff_eq,
        decide_eq_true_eq] at hleg'
      exact ih _ (AddServer_WF p id hWF hleg'.1.1 hleg'.1.2).1 hleg'.2
    | remove id =>
      have hleg' : (true && legalOps (applyOp p (PoolOp.remove id)) rest)
          = true := hleg
      rw [Bool.true_and] at hleg'
      exact ih _ (RemoveServer_WF p id hWF) hleg'
    | inc id =>
      have hleg' : (true && legalOps (applyOp p (PoolOp.inc id)) rest)
          = true := hleg
      rw [Bool.true_and] at hleg'
      exact ih _ (IncrementActive_WF p id hWF).1 hleg'
    | dec id =>
      have hleg' : (true && legalOps (applyOp p (PoolOp.dec id)) rest)
          = true := hleg
      rw [Bool.true_and] at hleg'
      exact ih _ (DecrementActive_WF p id hWF).1 hleg'
    | getNext =>
      have hleg' : (true && legalOps (applyOp p PoolOp.getNext) rest)
          = true := hleg
      rw [Bool.true_and] at hleg'
      exact ih _ hWF hleg'

/-- In a well-formed pool the root key is minimal over all slots. -/
theorem root_min (p : ServerPool) (hWF : WF p) :
    ∀ k, k < p.hlen → keyAt p 0 ≤ keyAt p k := by
  obtain ⟨_, _, _, hH⟩ := hWF
  intro k
  induction k using Nat.strong_induction_on with
  | _ k ih =>
    intro hk
    by_cases hk0 : k = 0
    · subst hk0; exact le_refl _
    · have hk0' : 0 < k := Nat.pos_of_ne_zero hk0
      exact le_trans (ih ((k - 1) / 2) (parent_lt hk0') (by omega))
        (hH k hk0' hk)

/-- Claim C1 (amended): starting from the empty pool over any store of
absent records, every legal operation sequence — one in which
`AddServer` is only invoked on records that are currently absent
(`Index == -1`, the guard the health checker itself uses) and carry a
positive weight (as `loadConfig` guarantees) — leaves the array a
min-heap under the exact ratio `ActiveConnections/Weight`, and the
record returned by `GetNextServer` has ratio less than or equal to
every present member's ratio.  (The double-insert counterexample is
exactly what the legality condition rules out.) -/
theorem legal_runs_keep_heap_and_best (st0 : Nat → Server)
    (ops : List PoolOp) (hidx : ∀ id, (st0 id).Index = -1)
    (hleg : legalOps ⟨st0, fun _ => 0, 0⟩ ops = true) :
    HeapProp (runOps ⟨st0, fun _ => 0, 0⟩ ops) ∧
    (∀ r, GetNextServer (runOps ⟨st0, fun _ => 0, 0⟩ ops) = some r →
      ∀ k, k < (runOps ⟨st0, fun _ => 0, 0⟩ ops).hlen →
        ratioQ ((runOps ⟨st0, fun _ => 0, 0⟩ ops).store r)
          ≤ ratioQ ((runOps ⟨st0, fun _ => 0, 0⟩ ops).atPos k)) := by
  have hWF0 : WF (⟨st0, fun _ => 0, 0⟩ : ServerPool) := by
    refine ⟨fun k hk => absurd hk (Nat.not_lt_zero k),
      fun id _ => hidx id,
      fun k hk => absurd hk (Nat.not_lt_zero k),
      fun k _ hk => absurd hk (Nat.not_lt_zero k)⟩
  have hWF := runOps_WF ops _ hWF0 hleg
  refine ⟨hWF.2.2.2, fun r hr k hk => ?_⟩
  have hq : (runOps ⟨st0, fun _ => 0, 0⟩ ops).hlen ≠ 0 ∧
      r = (runOps ⟨st0, fun _ => 0, 0⟩ ops).heap 0 := by
    unfold GetNextServer at hr
    by_cases h0 : (runOps ⟨st0, fun _ => 0, 0⟩ ops).hlen = 0
    · rw [if_pos h0] at hr; cases hr
    · rw [if_neg h0] at hr
      injection hr with h
      exact ⟨h0, h.symm⟩
  have hmin := root_min _ hWF k hk
  rw [hq.2]
  exact hmin

theorem legal_runs_keep_heap_and_best_witness :
    HeapProp (runOps (⟨fun _ => testServer, fun _ => 0, 0⟩ : ServerPool)
      [.add 0, .add 1, .inc 0]) :=
  (legal_runs_keep_heap_and_best (fun _ => testServer)
    [.add 0, .add 1, .inc 0] (fun _ => rfl) (by decide)).1

/-- Claim C10 (amended): starting from the empty pool over any store of
absent records, every legal operation sequence — `AddServer` only on
currently-absent, positively-weighted records, which is how the
repository itself calls it — preserves back-reference coherence: every
occupied slot's record stores exactly its slot index, and every record
not in the array carries the `-1` sentinel. -/
theorem legal_runs_keep_backrefs (st0 : Nat → Server)
    (ops : List PoolOp) (hidx : ∀ id, (st0 id).Index = -1)
    (hleg : legalOps ⟨st0, fun _ => 0, 0⟩ ops = true) :
    Coherent (runOps ⟨st0, fun _ => 0, 0⟩ ops) ∧
    AbsentClean (runOps ⟨st0, fun _ => 0, 0⟩ ops) := by
  have hWF0 : WF (⟨st0, fun _ => 0, 0⟩ : ServerPool) := by
    refine ⟨fun k hk => absurd hk (Nat.not_lt_zero k),
      fun id _ => hidx id,
      fun k hk => absurd hk (Nat.not_lt_zero k),
      fun k _ hk => absurd hk (Nat.not_lt_zero k)⟩
  have hWF := runOps_WF ops _ hWF0 hleg
  exact ⟨hWF.1, hWF.2.1⟩

theorem legal_runs_keep_backrefs_witness :
    Coherent (runOps (⟨fun _ => testServer, fun _ => 0, 0⟩ : ServerPool)
      [.add 0, .add 1, .remove 0]) :=
  (legal_runs_keep_backrefs (fun _ => testServer)
    [.add 0, .add 1, .remove 0] (fun _ => rfl) (by decide)).1

end LoadBalancer
